import Mathlib

/-!
# Verification of the qmud dynamic-books engine and AI client

A shallow embedding, in Lean 4, of the parts of the `qmud` repository that
the specification's testable properties talk about:

* `js/books.js` — `extractJSON` (the response parser), `BooksEngine.choose`
  (choice resolution), `BooksEngine._generatePage` (page arrival and its
  failure path), `BooksEngine._ensureSession`, `_applyEffects` (the effects
  applier), and the session-level commands (`close`, `resume`, `summary`, …);
* `js/ai.js` — the LLM rate-limiting fields (`lastLLMTime`, `llmMinInterval`)
  and the `executeWithQueue` single-flight queue;
* `js/utils.js` — `clamp01`.

Modelling conventions:

* JavaScript strings are `List Char`.
* JavaScript numbers are modelled exactly where the program's own literals
  live: JSON numbers as scaled decimals `m / 10^e` (an `Int` mantissa and a
  `Nat` decimal exponent), player stats as `ℚ` (for the fractional stats) and
  `ℤ` (for the stats the code floors), times in milliseconds as `ℚ`.
  Floating-point rounding is outside the model; every numeric literal the
  claims exercise is decimal and exact.
* `JSON.parse` / `JSON.stringify` are modelled by an executable parser and
  printer over a JSON value type; the parser is fuel-indexed so that all
  definitions compute by kernel reduction.
* Fallible operations return `Option`; JavaScript `null` string arguments are
  folded into the empty string, which the source treats identically (both are
  falsy at every guard the model crosses).
-/

namespace QMud

/-- JavaScript strings, as lists of characters. -/
abbrev JStr := List Char

/-! ## Character helpers -/

/-- JSON whitespace (`ws` in RFC 8259): space, tab, line feed, carriage return. -/
def isWs (c : Char) : Bool :=
  c = ' ' || c = '\t' || c = '\n' || c = '\r'

/-- The whitespace class used by `String.prototype.trim` and by `\s` in the
source's regexes; a superset of JSON whitespace (adds vertical tab and form
feed; the exotic Unicode space characters are outside the model). -/
def isTrimWs (c : Char) : Bool :=
  c = ' ' || c = '\t' || c = '\n' || c = '\r' || c = '\x0b' || c = '\x0c'

/-- ASCII `toLowerCase`, the case folding the source applies to ids, labels
and tokens. -/
def lowerChar (c : Char) : Char :=
  if 'A' ≤ c ∧ c ≤ 'Z' then Char.ofNat (c.toNat + 32) else c

/-- Lowercase a JavaScript string (`s.toLowerCase()`). -/
def lowerStr (s : JStr) : JStr := s.map lowerChar

def isDigit (c : Char) : Bool := '0' ≤ c && c ≤ '9'

def digitVal (c : Char) : Nat := c.toNat - '0'.toNat

/-- The `String.prototype.trim`: strip whitespace from both ends. -/
def trimLeft (s : JStr) : JStr := s.dropWhile isTrimWs

def trimRight (s : JStr) : JStr := (trimLeft s.reverse).reverse

def trim (s : JStr) : JStr := trimRight (trimLeft s)

/-! ## The JSON value model

`num m e` denotes the decimal `m / 10^e`.  `JSON.stringify` of the doubles
the program manipulates prints a decimal literal; the pair records mantissa
and decimal places so printing and parsing are exact and executable. -/

mutual
inductive Json where
  | null : Json
  | bool (b : Bool) : Json
  | num (m : Int) (e : Nat) : Json
  | str (s : JStr) : Json
  | arr (xs : JArr) : Json
  | obj (fs : JObj) : Json
  deriving DecidableEq

inductive JArr where
  | nil : JArr
  | cons (hd : Json) (tl : JArr) : JArr
  deriving DecidableEq

inductive JObj where
  | nil : JObj
  | cons (k : JStr) (v : Json) (tl : JObj) : JObj
  deriving DecidableEq
end

/-- The rational value of a JSON number `num m e`. -/
def decVal (m : Int) (e : Nat) : ℚ := (m : ℚ) / (10 : ℚ) ^ e

mutual
/-- A weight measure used to bound parser fuel: every node weighs at least 1. -/
def jweight : Json → Nat
  | .null => 1
  | .bool _ => 1
  | .num _ _ => 1
  | .str _ => 1
  | .arr xs => 2 + jweightA xs
  | .obj fs => 2 + jweightO fs

def jweightA : JArr → Nat
  | .nil => 0
  | .cons x xs => 1 + jweight x + jweightA xs

def jweightO : JObj → Nat
  | .nil => 0
  | .cons _ v fs => 1 + jweight v + jweightO fs
end

/-! ## Decimal digits -/

/-- The decimal digit character for `n < 10` (and `'9'` above that, which the
printer never requests). -/
def digitChar (n : Nat) : Char :=
  if n = 0 then '0' else if n = 1 then '1' else if n = 2 then '2'
  else if n = 3 then '3' else if n = 4 then '4' else if n = 5 then '5'
  else if n = 6 then '6' else if n = 7 then '7' else if n = 8 then '8' else '9'

/-- Fuel-indexed digit printer (most significant first); `natDec` supplies
enough fuel for any input. -/
def natDecF : Nat → Nat → JStr
  | 0, _ => []
  | fuel + 1, n =>
    if n < 10 then [digitChar n]
    else natDecF fuel (n / 10) ++ [digitChar (n % 10)]

/-- Decimal digits of a natural number, as JavaScript prints it. -/
def natDec (n : Nat) : JStr := natDecF (n + 1) n

/-- Numeric value of a digit string (the accumulator fold a parser performs). -/
def digitsToNat (ds : JStr) : Nat := ds.foldl (fun a c => a * 10 + digitVal c) 0

/-- Left-pad a digit string with zeros to length `k`. -/
def padZeros (k : Nat) (ds : JStr) : JStr := List.replicate (k - ds.length) '0' ++ ds

/-- The unsigned part of a printed decimal: plain digits when `e = 0`, else
integer digits, a point, and exactly `e` fractional digits. -/
def numLitNat (a : Nat) (e : Nat) : JStr :=
  if e = 0 then natDec a
  else
    (padZeros (e + 1) (natDec a)).take ((padZeros (e + 1) (natDec a)).length - e) ++
      '.' :: (padZeros (e + 1) (natDec a)).drop ((padZeros (e + 1) (natDec a)).length - e)

/-- Print the decimal `m / 10^e` the way `JSON.stringify` prints the
corresponding double: optional minus sign, integer part, and — when `e > 0` —
a decimal point followed by `e` fractional digits. -/
def numLit (m : Int) (e : Nat) : JStr :=
  (if m < 0 then ['-'] else []) ++ numLitNat m.natAbs e

/-- One hexadecimal digit (lowercase), for `\u00XX` escapes. -/
def hexDigit (n : Nat) : Char :=
  if n < 10 then digitChar n
  else if n = 10 then 'a' else if n = 11 then 'b' else if n = 12 then 'c'
  else if n = 13 then 'd' else if n = 14 then 'e' else 'f'

/-- Value of a hexadecimal digit character. -/
def hexVal (c : Char) : Option Nat :=
  if '0' ≤ c ∧ c ≤ '9' then some (c.toNat - '0'.toNat)
  else if 'a' ≤ c ∧ c ≤ 'f' then some (c.toNat - 'a'.toNat + 10)
  else if 'A' ≤ c ∧ c ≤ 'F' then some (c.toNat - 'A'.toNat + 10)
  else none

/-- Escape one character the way `JSON.stringify` escapes string contents:
quote, backslash, the named control escapes, `\u00XX` for the remaining
control characters, and everything else verbatim. -/
def escChar (c : Char) : JStr :=
  if c = '"' then ['\\', '"']
  else if c = '\\' then ['\\', '\\']
  else if c = '\n' then ['\\', 'n']
  else if c = '\r' then ['\\', 'r']
  else if c = '\t' then ['\\', 't']
  else if c = '\x08' then ['\\', 'b']
  else if c = '\x0c' then ['\\', 'f']
  else if c.toNat < 0x20 then
    ['\\', 'u', '0', '0', hexDigit (c.toNat / 16), hexDigit (c.toNat % 16)]
  else [c]

/-- Escape a whole string body. -/
def escStr (s : JStr) : JStr := s.flatMap escChar

/-- A JSON string literal: `"` body `"`. -/
def strLit (s : JStr) : JStr := '"' :: escStr s ++ ['"']

mutual
/-- The `JSON.stringify` (compact form: no added whitespace, as the host calls it). -/
def stringify : Json → JStr
  | .null => ['n', 'u', 'l', 'l']
  | .bool b => if b then ['t', 'r', 'u', 'e'] else ['f', 'a', 'l', 's', 'e']
  | .num m e => numLit m e
  | .str s => strLit s
  | .arr xs => '[' :: stringifyA xs ++ [']']
  | .obj fs => '{' :: stringifyO fs ++ ['}']

/-- Array elements, comma separated. -/
def stringifyA : JArr → JStr
  | .nil => []
  | .cons x .nil => stringify x
  | .cons x (JArr.cons y ys) => stringify x ++ ',' :: stringifyA (JArr.cons y ys)

/-- Object members, comma separated. -/
def stringifyO : JObj → JStr
  | .nil => []
  | .cons k v .nil => strLit k ++ ':' :: stringify v
  | .cons k v (JObj.cons k' v' fs) =>
      strLit k ++ ':' :: stringify v ++ ',' :: stringifyO (JObj.cons k' v' fs)
end

/-! ## The JSON parser (a model of `JSON.parse`)

Fuel-indexed so that every definition is structural and computes by kernel
reduction.  The parser accepts exactly the JSON grammar on the inputs the
development evaluates it on; scaled decimals carry fractions and exponents
losslessly. -/

/-- Skip JSON whitespace. -/
def skipWs (s : JStr) : JStr := s.dropWhile isWs

/-- The named escapes `JSON.parse` decodes (`\" \\ \/ \n \r \t \b \f`). -/
def unescape1 (e : Char) : Option Char :=
  if e = '"' then some '"'
  else if e = '\\' then some '\\'
  else if e = '/' then some '/'
  else if e = 'n' then some '\n'
  else if e = 'r' then some '\r'
  else if e = 't' then some '\t'
  else if e = 'b' then some '\x08'
  else if e = 'f' then some '\x0c'
  else none

/-- Parse a string body after the opening quote, unescaping as `JSON.parse`
does; returns the decoded string and the input after the closing quote. -/
def parseStrBody : JStr → Option (JStr × JStr)
  | [] => none
  | c :: rest =>
    if c = '"' then some ([], rest)
    else if c = '\\' then
      match rest with
      | [] => none
      | e :: rest2 =>
        if e = 'u' then
          match rest2 with
          | h1 :: h2 :: h3 :: h4 :: rest3 =>
            (match hexVal h1, hexVal h2, hexVal h3, hexVal h4 with
             | some a, some b, some c', some d =>
               (parseStrBody rest3).map fun sr =>
                 (Char.ofNat (a * 4096 + b * 256 + c' * 16 + d) :: sr.1, sr.2)
             | _, _, _, _ => none)
          | _ => none
        else
          match unescape1 e with
          | some c' => (parseStrBody rest2).map fun sr => (c' :: sr.1, sr.2)
          | none => none
    else (parseStrBody rest).map fun sr => (c :: sr.1, sr.2)

/-- Split a leading minus sign. -/
def splitMinus (s : JStr) : Bool × JStr :=
  match s with
  | [] => (false, [])
  | c :: rest => if c = '-' then (true, rest) else (false, c :: rest)

/-- Split a leading minus or plus sign (the exponent part allows both). -/
def splitSign (s : JStr) : Bool × JStr :=
  match s with
  | [] => (false, [])
  | c :: rest =>
    if c = '-' then (true, rest) else if c = '+' then (false, rest) else (false, c :: rest)

/-- Assemble the scaled decimal and consume an optional exponent part. -/
def finishNum (neg : Bool) (intPart frac : Nat) (e : Nat) (s3 : JStr) :
    Option (Json × JStr) :=
  let m : Int := (intPart * 10 ^ e + frac : Nat)
  let m := if neg then -m else m
  match s3 with
  | [] => some (.num m e, [])
  | c :: rest =>
    if c = 'e' ∨ c = 'E' then
      let (eneg, s4) := splitSign rest
      let es := s4.takeWhile isDigit
      if es = [] then none
      else
        let k := digitsToNat es
        let s5 := s4.dropWhile isDigit
        if eneg then some (.num m (e + k), s5)
        else some (.num (m * (10 : Int) ^ k) e, s5)
    else some (.num m e, c :: rest)

/-- The optional fraction after the integer digits. -/
def parseFrac (neg : Bool) (intPart : Nat) (s2 : JStr) : Option (Json × JStr) :=
  match s2 with
  | [] => finishNum neg intPart 0 0 []
  | c :: rest =>
    if c = '.' then
      let fs := rest.takeWhile isDigit
      if fs = [] then none
      else finishNum neg intPart (digitsToNat fs) fs.length (rest.dropWhile isDigit)
    else finishNum neg intPart 0 0 (c :: rest)

/-- The digits-fraction-exponent part of number parsing, after the sign. -/
def parseNumBody (neg : Bool) (s1 : JStr) : Option (Json × JStr) :=
  let ds := s1.takeWhile isDigit
  if ds = [] then none
  else parseFrac neg (digitsToNat ds) (s1.dropWhile isDigit)

/-- Parse a JSON number starting at a sign or digit, producing a scaled
decimal.  An exponent rescales the mantissa, matching `JSON.parse` on the
decimal literals the model prints. -/
def parseNum (s : JStr) : Option (Json × JStr) :=
  let (neg, s1) := splitMinus s
  parseNumBody neg s1

mutual
/-- Parse one JSON value (leading whitespace allowed). -/
def parseValue : Nat → JStr → Option (Json × JStr)
  | 0, _ => none
  | fuel + 1, s =>
    match skipWs s with
    | [] => none
    | c :: rest =>
      if c = '{' then
        match parseMembers fuel rest with
        | some (fs, r) => some (.obj fs, r)
        | none => none
      else if c = '[' then
        match parseElems fuel rest with
        | some (xs, r) => some (.arr xs, r)
        | none => none
      else if c = '"' then
        match parseStrBody rest with
        | some (cs, r) => some (.str cs, r)
        | none => none
      else if c = 't' then
        if ['r', 'u', 'e'].isPrefixOf rest then some (.bool true, rest.drop 3) else none
      else if c = 'f' then
        if ['a', 'l', 's', 'e'].isPrefixOf rest then some (.bool false, rest.drop 4) else none
      else if c = 'n' then
        if ['u', 'l', 'l'].isPrefixOf rest then some (.null, rest.drop 3) else none
      else if c = '-' || isDigit c then parseNum (c :: rest)
      else none

/-- Parse array elements after `[`. -/
def parseElems : Nat → JStr → Option (JArr × JStr)
  | 0, _ => none
  | fuel + 1, s =>
    match skipWs s with
    | [] => parseElemsRest fuel s
    | c :: r => if c = ']' then some (.nil, r) else parseElemsRest fuel s

/-- Parse a non-empty comma-separated element list up to `]`. -/
def parseElemsRest : Nat → JStr → Option (JArr × JStr)
  | 0, _ => none
  | fuel + 1, s =>
    match parseValue fuel s with
    | some (v, r) =>
      (match skipWs r with
       | [] => none
       | c :: r2 =>
         if c = ',' then
           match parseElemsRest fuel r2 with
           | some (xs, r3) => some (.cons v xs, r3)
           | none => none
         else if c = ']' then some (.cons v .nil, r2)
         else none)
    | none => none

/-- Parse object members after `{`. -/
def parseMembers : Nat → JStr → Option (JObj × JStr)
  | 0, _ => none
  | fuel + 1, s =>
    match skipWs s with
    | [] => parseMembersRest fuel s
    | c :: r => if c = '}' then some (.nil, r) else parseMembersRest fuel s

/-- Parse a non-empty comma-separated member list up to `}`. -/
def parseMembersRest : Nat → JStr → Option (JObj × JStr)
  | 0, _ => none
  | fuel + 1, s =>
    match skipWs s with
    | [] => none
    | c :: rest =>
      if c = '"' then
        match parseStrBody rest with
        | some (k, r) =>
          (match skipWs r with
           | [] => none
           | c2 :: r2 =>
             if c2 = ':' then
               match parseValue fuel r2 with
               | some (v, r3) =>
                 (match skipWs r3 with
                  | [] => none
                  | c3 :: r4 =>
                    if c3 = ',' then
                      match parseMembersRest fuel r4 with
                      | some (fs, r5) => some (.cons k v fs, r5)
                      | none => none
                    else if c3 = '}' then some (.cons k v .nil, r4)
                    else none)
               | none => none
             else none)
        | none => none
      else none
end

/-- The `JSON.parse`: parse one value and require only whitespace after it. -/
def parseWhole (s : JStr) : Option Json :=
  match parseValue (3 * s.length + 1) s with
  | some (v, r) => if skipWs r = [] then some v else none
  | none => none

/-! ## `extractJSON` (books.js lines 7–21)

Strategy order: direct parse of the trimmed text; a ```-fenced block
(optionally tagged `json`, case-insensitively); the literal
`$begin:math:display$…$end:math:display$` marker pair the source's third
regex spells out; finally the substring from the first `{` to the last `}`.
A parse failure at any strategy falls through to the next. -/

/-- The opening triple backtick. -/
def tick3 : JStr := ['`', '`', '`']

/-- Capture the characters before the next ```, or fail if none follows
(the lazy `([\s\S]*?)` up to the closing fence). -/
def captureTo : JStr → Option JStr
  | [] => none
  | c :: rest =>
    if tick3.isPrefixOf (c :: rest) then some []
    else (captureTo rest).map (c :: ·)

/-- First match of ``/```(?:json)?\s*([\s\S]*?)```/i``: at the leftmost
opening fence from which a closing fence is reachable, consume an optional
case-insensitive `json` tag and greedy whitespace, and capture lazily up to
the closing fence; otherwise retry from the next position. -/
def fenceCapture : JStr → Option JStr
  | [] => none
  | c :: rest =>
    if tick3.isPrefixOf (c :: rest) then
      let afterOpen := (c :: rest).drop 3
      let afterTag :=
        if lowerStr (afterOpen.take 4) = ['j', 's', 'o', 'n'] then afterOpen.drop 4
        else afterOpen
      match captureTo (afterTag.dropWhile isTrimWs) with
      | some cap => some cap
      | none => fenceCapture rest
    else fenceCapture rest

/-- Case-insensitive search for `pat`; returns the input after the first
occurrence. -/
def findCi (pat : JStr) : JStr → Option JStr
  | [] => if pat = [] then some [] else none
  | c :: rest =>
    if (lowerStr pat).isPrefixOf (lowerStr (c :: rest)) then some ((c :: rest).drop pat.length)
    else findCi pat rest

/-- Characters before the first case-insensitive occurrence of `pat`, or
failure if it never occurs. -/
def captureToCi (pat : JStr) : JStr → Option JStr
  | [] => none
  | c :: rest =>
    if (lowerStr pat).isPrefixOf (lowerStr (c :: rest)) then some []
    else (captureToCi pat rest).map (c :: ·)

/-- The literal opener the source's third regex matches (its `\$begin:math:display\$JSON\$end:math:display\$`). -/
def markerOpen : JStr := "$begin:math:display$json$end:math:display$".data

/-- The literal closer (`\$begin:math:display\$\/JSON\$end:math:display\$`). -/
def markerClose : JStr := "$begin:math:display$/json$end:math:display$".data

/-- Match of the marker-pair regex: after the opener, capture lazily to the
closer; the `\s*` on both sides of the capture group trims the interior. -/
def markerCapture (t : JStr) : Option JStr :=
  match findCi markerOpen t with
  | some afterO =>
    (match captureToCi markerClose afterO with
     | some cap => some (trim cap)
     | none => none)
  | none => none

/-- The `indexOf('{')`. -/
def idxOpenBrace (t : JStr) : Option Nat := t.findIdx? (· = '{')

/-- The `lastIndexOf('}')`. -/
def idxCloseBrace (t : JStr) : Option Nat :=
  (t.reverse.findIdx? (· = '}')).map (fun i => t.length - 1 - i)

/-- Strategy 4: `t.slice(s, e + 1)` for the first `{` and last `}`, when
`s >= 0 && e > s`. -/
def braceSlice (t : JStr) : Option JStr :=
  match idxOpenBrace t, idxCloseBrace t with
  | some s, some e => if s < e then some ((t.drop s).take (e + 1 - s)) else none
  | _, _ => none

/-- Try `JSON.parse` on an optional captured fragment. -/
def tryParse : Option JStr → Option Json
  | some cap => parseWhole cap
  | none => none

/-- The `extractJSON` (books.js lines 7–21).  A `null` argument and the empty
string are both falsy at the `!text` guard and are folded together. -/
def extractJSON (text : JStr) : Option Json :=
  if text = [] then none
  else
    let t := trim text
    match parseWhole t with
    | some v => some v
    | none =>
      match tryParse (fenceCapture t) with
      | some v => some v
      | none =>
        match tryParse (markerCapture t) with
        | some v => some v
        | none => tryParse (braceSlice t)

/-! ## JavaScript object access on parsed values -/

/-- Property lookup on a parsed object: `JSON.parse` keeps the last duplicate
key, so the scan prefers later bindings. -/
def objGet (k : JStr) : JObj → Option Json
  | .nil => none
  | .cons k' v fs =>
    match objGet k fs with
    | some r => some r
    | none => if k' = k then some v else none

/-- The `key in obj`. -/
def objHas (k : JStr) : JObj → Bool
  | .nil => false
  | .cons k' _ fs => k' = k || objHas k fs

/-- The `obj[k] = v`: overwrite the binding if the key exists, else append. -/
def objSet (k : JStr) (v : Json) : JObj → JObj
  | .nil => .cons k v .nil
  | .cons k' v' fs => if k' = k then .cons k' v fs else .cons k' v' (objSet k v fs)

/-- The `obj.field` on an arbitrary value: `undefined` (here `none`) unless the
value is an object carrying the key. -/
def getField (v : Json) (k : JStr) : Option Json :=
  match v with
  | .obj fs => objGet k fs
  | _ => none

/-- JavaScript truthiness of a parsed value: `null`, `false`, `0` and `""`
are falsy; arrays and objects are truthy. -/
def jsTruthy : Json → Bool
  | .null => false
  | .bool b => b
  | .num m _ => m ≠ 0
  | .str s => s ≠ []
  | .arr _ => true
  | .obj _ => true

/-- Truthiness of a possibly-absent property (`undefined` is falsy). -/
def jsTruthyOpt : Option Json → Bool
  | none => false
  | some v => jsTruthy v

mutual
/-- JavaScript `String(v)` on parsed values, used when a value becomes a
property key (`s.pages[obj.page_id]`). -/
def jsToStr : Json → JStr
  | .null => ['n', 'u', 'l', 'l']
  | .bool b => if b then ['t', 'r', 'u', 'e'] else ['f', 'a', 'l', 's', 'e']
  | .num m e => numLit m e
  | .str s => s
  | .arr xs => jsToStrA xs
  | .obj _ => "[object Object]".data

/-- The `Array.prototype.toString`: elements joined with commas. -/
def jsToStrA : JArr → JStr
  | .nil => []
  | .cons x .nil => jsToStr x
  | .cons x (JArr.cons y ys) => jsToStr x ++ ',' :: jsToStrA (JArr.cons y ys)
end

/-- Truncate an array to its first `n` elements (`choices.slice(0, 6)`). -/
def jtake : Nat → JArr → JArr
  | 0, _ => .nil
  | _, .nil => .nil
  | n + 1, .cons x xs => .cons x (jtake n xs)

/-- Array elements as a Lean list, for iteration. -/
def jlist : JArr → List Json
  | .nil => []
  | .cons x xs => x :: jlist xs

/-! ## Numeric token parsing (`parseInt`, `parseFloat`) -/

/-- The `parseInt(token, 10)`: skip leading whitespace, an optional sign, then a
run of decimal digits; `NaN` (here `none`) when the run is empty.  Trailing
garbage is ignored. -/
def parseIntJS (s : JStr) : Option Int :=
  let (neg, s2) := splitSign (s.dropWhile isTrimWs)
  let ds := s2.takeWhile isDigit
  if ds = [] then none
  else some (if neg then -(digitsToNat ds : Int) else (digitsToNat ds : Int))

/-- The `parseFloat(s)`: skip leading whitespace, an optional sign, digits with an
optional fraction; `NaN` (here `none`) when no digits are found.  The
exponent form never reaches the model's call site (`"=0.3"`-style effect
strings); trailing garbage is ignored. -/
def parseFloatJS (s : JStr) : Option ℚ :=
  let (neg, s2) := splitSign (s.dropWhile isTrimWs)
  let ds := s2.takeWhile isDigit
  let s3 := s2.dropWhile isDigit
  let (frac, fl) : Nat × Nat :=
    match s3 with
    | [] => (0, 0)
    | c :: r =>
      if c = '.' then (digitsToNat (r.takeWhile isDigit), (r.takeWhile isDigit).length)
      else (0, 0)
  if ds = [] ∧ fl = 0 then none
  else
    let mag : ℚ := (digitsToNat ds : ℚ) + (frac : ℚ) / (10 : ℚ) ^ fl
    some (if neg then -mag else mag)

/-! ## The effects applier (`_applyEffects`, books.js lines 246–275)

Player state carries the stats the applier touches.  `quantumState` is an
object `{coherence, …}` in the source; a numeric or `"=…"` effect on the
`quantum` key overwrites that object with a number (`clamp01(object + n)` is
`NaN`), which the model records as `none`.  The inventory delegation
(`give_item` / `take_item`) and the display/publish side effects touch no
state any claim mentions and are omitted. -/

/-- The `Math.max` on rationals, by cases so it is definitionally transparent. -/
def jsMaxQ (a b : ℚ) : ℚ := if a ≤ b then b else a

/-- The `Math.min` on rationals. -/
def jsMinQ (a b : ℚ) : ℚ := if a ≤ b then a else b

/-- The `clamp01` (utils.js line 1): `Math.max(0, Math.min(1, x))`. -/
def clamp01 (x : ℚ) : ℚ := jsMaxQ 0 (jsMinQ 1 x)

/-- The `Math.max` on integers (the `hp` update is integer-valued). -/
def jsMaxI (a b : ℤ) : ℤ := if a ≤ b then b else a

/-- The `Math.min` on integers. -/
def jsMinI (a b : ℤ) : ℤ := if a ≤ b then a else b

structure PlayerSt where
  truthDensity : ℚ
  /-- `some c` models `quantumState` with `coherence: c`; `none` models the
  state after a numeric effect has replaced the object with `NaN`. -/
  quantumCoherence : Option ℚ
  shadowIntegration : ℚ
  insight : ℤ
  hp : ℤ

/-- The `upd(field, val)` closure of `_applyEffects`: a number is a clamped
delta, a string `"=n"` is a clamped absolute set, anything else is ignored. -/
def updClamped (old : ℚ) (val : Json) : ℚ :=
  match val with
  | .num m e => clamp01 (old + decVal m e)
  | .str s =>
    (match s with
     | '=' :: rest =>
       (match parseFloatJS rest with
        | some q => clamp01 q
        | none => old)
     | _ => old)
  | _ => old

/-- Whether `upd` would overwrite the field (used for the `quantumState`
object, which a numeric or string effect corrupts). -/
def updHits (val : Json) : Bool :=
  match val with
  | .num _ _ => true
  | .str s =>
    (match s with
     | '=' :: rest => (parseFloatJS rest).isSome
     | _ => false)
  | _ => false

/-- The `_applyEffects(effects)`.  The argument is the parsed `effects` value;
anything that is not an object (including the `null` that `typeof` also calls
an object but that the leading falsiness guard rejects) leaves the state
unchanged. -/
def applyEffects (eff : Json) (p : PlayerSt) : PlayerSt :=
  match eff with
  | .obj fs =>
    let p :=
      if objHas ("truth".data) fs then
        { p with truthDensity :=
            updClamped p.truthDensity ((objGet ("truth".data) fs).getD .null) }
      else p
    let p :=
      if objHas ("quantum".data) fs then
        if updHits ((objGet ("quantum".data) fs).getD .null) then
          { p with quantumCoherence := none }
        else p
      else p
    let p :=
      match objGet ("quantum".data) fs with
      | some (.obj qs) =>
        (if objHas ("coherence".data) qs then
          match p.quantumCoherence with
          | some c =>
            (match objGet ("coherence".data) qs with
             | some (.num m e) => { p with quantumCoherence := some (clamp01 (c + decVal m e)) }
             | some v =>
               -- `(… || 0)`: a falsy coherence adds 0; a truthy non-number
               -- would leave a non-numeric coherence behind, recorded as `none`.
               if jsTruthy v then { p with quantumCoherence := none }
               else { p with quantumCoherence := some (clamp01 (c + 0)) }
             | none => { p with quantumCoherence := some (clamp01 (c + 0)) })
          | none => p
        else p)
      | _ => p
    let p :=
      if objHas ("shadow".data) fs then
        { p with shadowIntegration :=
            updClamped p.shadowIntegration ((objGet ("shadow".data) fs).getD .null) }
      else p
    let p :=
      if objHas ("insight".data) fs then
        (match objGet ("insight".data) fs with
         | some (.num m e) => { p with insight := p.insight + ⌊decVal m e⌋ }
         | _ => p)
      else p
    let p :=
      if objHas ("hp".data) fs then
        (match objGet ("hp".data) fs with
         | some (.num m e) => { p with hp := jsMaxI 0 (jsMinI 100 (p.hp + ⌊decVal m e⌋)) }
         | _ => p)
      else p
    p
  | _ => p

/-! ## The book session (`BooksEngine`, books.js)

The session object of `_ensureSession` (lines 177–198): `pages` is the
page-id-keyed map, `current` the pointer, `path` the choice history.  The
`createdAt`/`lastAt` wall-clock stamps influence nothing any claim mentions
and are omitted.  `addOutput` is modelled as appending to a message log;
Aterna publishes are fire-and-forget and touch no modelled state. -/

structure Session where
  active : Bool
  bookId : JStr
  title : JStr
  seed : JStr
  pages : List (JStr × Json)
  current : Option JStr
  path : List JStr
  deriving DecidableEq

/-- The `s.pages[k]` (keys are unique by construction of `pagesSet`). -/
def pagesGet (k : JStr) : List (JStr × Json) → Option Json
  | [] => none
  | (k', v) :: rest => if k' = k then some v else pagesGet k rest

/-- The `s.pages[k] = v`. -/
def pagesSet (k : JStr) (v : Json) : List (JStr × Json) → List (JStr × Json)
  | [] => [(k, v)]
  | (k', v') :: rest => if k' = k then (k', v) :: rest else (k', v') :: pagesSet k v rest

/-- The full engine-visible state: the session, the player stats the effects
applier mutates, the AI-availability flag, and the output log. -/
structure BState where
  bookSession : Option Session
  player : PlayerSt
  aiEnabled : Bool
  msgs : List JStr

/-- A truthy `current` pointer (`s?.current`): present and non-empty. -/
def currentTruthy (s : Session) : Option JStr :=
  match s.current with
  | some c => if c = [] then none else some c
  | none => none

/-- The `obj.k = v` on a parsed value (only objects are assignable; the model is
never asked to assign on a primitive). -/
def jsonSetField (v : Json) (k : JStr) (x : Json) : Json :=
  match v with
  | .obj fs => .obj (objSet k x fs)
  | _ => v

/-- The `${c.label || c.id}` in the choice list rendering, with JavaScript's
string coercions. -/
def labelOrId (c : Json) : JStr :=
  if jsTruthyOpt (getField c ("label".data)) then jsToStr ((getField c ("label".data)).getD .null)
  else
    match getField c ("id".data) with
    | some v => jsToStr v
    | none => "undefined".data

/-- The `Choices:` block `_renderCurrent` prints. -/
def choicesBlock (chs : List Json) : JStr :=
  "Choices:".data ++
    chs.enum.flatMap (fun ic => '\n' :: (natDec (ic.1 + 1) ++ ". ".data ++ labelOrId ic.2))

/-- The `_renderCurrent` (lines 231–244), as the sequence of outputs it emits. -/
def renderMsgs (s : Session) : List JStr :=
  match currentTruthy s with
  | none => []
  | some cur =>
    match pagesGet cur s.pages with
    | none => []
    | some page =>
      let head := '\n' :: '[' :: (s.title ++ " — ".data ++
        jsToStr ((getField page ("title".data)).getD .null) ++ [']'])
      let prose := jsToStr ((getField page ("prose".data)).getD .null)
      head :: prose ::
        (match getField page ("choices".data) with
         | some (.arr (JArr.cons c cs)) => [choicesBlock (jlist (JArr.cons c cs))]
         | _ => ["The page offers contemplation, not decision.".data])

/-- The in-world failure message of `_generatePage`. -/
def refuseMsg : JStr := "[The page refuses to resolve. Try again.]".data

/-- The `_generatePage` (lines 200–229).  `raw` is the awaited `callLLM` result
(`null` folded into the empty string, which `extractJSON` also rejects).  On
a missing extraction or a falsy `page_id`/`prose` the method prints the
refusal message and returns before touching the session; on success it
normalizes `title`/`choices`, applies page-level effects, stores the page
under the (string-coerced) `page_id` and points `current` at it. -/
def generatePage (raw : JStr) (st : BState) : BState :=
  match st.bookSession with
  | none => st
  | some s =>
    if s.bookId = [] then st
    else
      match extractJSON raw with
      | none => { st with msgs := st.msgs ++ [refuseMsg] }
      | some o =>
        if ¬ (jsTruthyOpt (getField o ("page_id".data)) ∧ jsTruthyOpt (getField o ("prose".data))) then
          { st with msgs := st.msgs ++ [refuseMsg] }
        else
          let count := s.pages.length
          let titleVal :=
            if jsTruthyOpt (getField o ("title".data)) then (getField o ("title".data)).getD .null
            else .str ("Leaf ".data ++ natDec (count + 1))
          let o := jsonSetField o ("title".data) titleVal
          let chVal :=
            match getField o ("choices".data) with
            | some (.arr a) => Json.arr (jtake 6 a)
            | _ => Json.arr .nil
          let o := jsonSetField o ("choices".data) chVal
          -- `if (obj.effects && typeof obj.effects === 'object') this._applyEffects(obj.effects)`:
          -- `applyEffects` is the identity on every value the guard rejects.
          let pl := applyEffects ((getField o ("effects".data)).getD .null) st.player
          let key := jsToStr ((getField o ("page_id".data)).getD .null)
          let s' := { s with pages := pagesSet key o s.pages, current := some key }
          { st with bookSession := some s', player := pl,
                    msgs := st.msgs ++ renderMsgs s' }

/-! ### Choice resolution (`choose`, books.js lines 67–95) -/

/-- The predicate of the `find` callback: a truthy string id equal to or
starting with the lowercased token, or a truthy string label starting with
it.  (A truthy non-string id or label would throw at `.toLowerCase()`; no
such page is exercised.) -/
def choiceMatches (low : JStr) (c : Json) : Bool :=
  (match getField c ("id".data) with
   | some (.str s) => s ≠ [] && (lowerStr s = low || low.isPrefixOf (lowerStr s))
   | _ => false) ||
  (match getField c ("label".data) with
   | some (.str s) => s ≠ [] && low.isPrefixOf (lowerStr s)
   | _ => false)

/-- The `choices.find(...)` together with the element's index. -/
def findMatch (low : JStr) : List Json → Option (Json × Nat)
  | [] => none
  | c :: rest =>
    if choiceMatches low c then some (c, 0)
    else (findMatch low rest).map (fun xi => (xi.1, xi.2 + 1))

/-- The resolution step of `choose`: a numeric token inside `[1, length]`
selects by position (a falsy element still fails the final `!choice` check);
any other token — including an out-of-range numeric one — falls through to
the scan. -/
def resolveChoice (token : JStr) (chs : List Json) : Option (Json × Nat) :=
  match parseIntJS token with
  | some idx =>
    if 1 ≤ idx ∧ idx ≤ chs.length then
      let c := chs.getD (idx - 1).toNat .null
      if jsTruthy c then some (c, (idx - 1).toNat) else none
    else findMatch (lowerStr token) chs
  | none => findMatch (lowerStr token) chs

/-- The path entry `choose` pushes: `choice.id || String(indexOf(choice))`. -/
def pathKey (c : Json) (i : Nat) : JStr :=
  if jsTruthyOpt (getField c ("id".data)) then jsToStr ((getField c ("id".data)).getD .null)
  else natDec i

/-- The `choose(token)` (lines 67–95): guards, resolution, immediate choice
effects, the `path.push`, then `_generatePage`. -/
def chooseStep (token : JStr) (raw : JStr) (st : BState) : BState :=
  match st.bookSession with
  | none => { st with msgs := st.msgs ++ ["No book is open.".data] }
  | some s =>
    match currentTruthy s with
    | none => { st with msgs := st.msgs ++ ["No book is open.".data] }
    | some cur =>
      let noChoice := { st with msgs := st.msgs ++ ["This page offers no choice.".data] }
      match pagesGet cur s.pages with
      | none => noChoice
      | some page =>
        match getField page ("choices".data) with
        | some (.arr (JArr.cons c0 crest)) =>
          let chs := jlist (JArr.cons c0 crest)
          (match resolveChoice token chs with
           | none => { st with msgs := st.msgs ++ ["Choice not found.".data] }
           | some (c, i) =>
             -- `_applyEffects(choice.effects || {})`: identical to applying the
             -- raw property, since `applyEffects` ignores every non-object.
             let pl := applyEffects ((getField c ("effects".data)).getD .null) st.player
             let s' := { s with path := s.path ++ [pathKey c i] }
             generatePage raw { st with bookSession := some s', player := pl })
        | _ => noChoice

/-! ### The remaining commands -/

/-- The `_ensureSession` (lines 177–198), with the item lookup abstracted to the
`isBook`/`name` arguments and the `stableSeed` string passed in. -/
def ensureSession (isBook : Bool) (bookId name seed : JStr) (st : BState) : BState :=
  if ¬ isBook then { st with msgs := st.msgs ++ ["That is not a book.".data] }
  else
    match st.bookSession with
    | some s =>
      if s.bookId = bookId then { st with bookSession := some { s with active := true } }
      else
        { st with
          bookSession := some ⟨true, bookId, name, seed, [], none, []⟩,
          msgs := st.msgs ++ ["[You open ".data ++ name ++ ".]".data] }
    | none =>
      { st with
        bookSession := some ⟨true, bookId, name, seed, [], none, []⟩,
        msgs := st.msgs ++ ["[You open ".data ++ name ++ ".]".data] }

/-- The `open(token)` (lines 52–63): `found` is the `_findBookId` result (which
only ever returns book items), `raw` the eventual generation response. -/
def openStep (found : Option (JStr × JStr)) (seed raw : JStr) (st : BState) : BState :=
  match found with
  | none => { st with msgs := st.msgs ++ ["Name the book clearly.".data] }
  | some (id, name) =>
    let st := ensureSession true id name seed st
    if ¬ st.aiEnabled then
      { st with msgs := st.msgs ++
          ["This book remains blank without the Librarian’s voice (AI is offline).".data] }
    else
      match st.bookSession with
      | some s =>
        (match currentTruthy s with
         | some _ => { st with msgs := st.msgs ++ renderMsgs s }
         | none => generatePage raw st)
      | none => generatePage raw st

/-- The `ask(q)` (lines 97–106): renders an answer, mutates no session state. -/
def askStep (answer : Option JStr) (st : BState) : BState :=
  match st.bookSession with
  | none => { st with msgs := st.msgs ++ ["No book is open.".data] }
  | some s =>
    match currentTruthy s with
    | none => { st with msgs := st.msgs ++ ["No book is open.".data] }
    | some _ =>
      if ¬ st.aiEnabled then
        { st with msgs := st.msgs ++ ["The pages rustle but do not answer (AI offline).".data] }
      else
        match answer with
        | some a => { st with msgs := st.msgs ++ [a] }
        | none => st

/-- The `draw()` (lines 108–123): sets an image and prints a status line. -/
def drawStep (url : Option JStr) (st : BState) : BState :=
  match st.bookSession with
  | none => { st with msgs := st.msgs ++ ["Open a book first.".data] }
  | some s =>
    match currentTruthy s with
    | none => { st with msgs := st.msgs ++ ["Open a book first.".data] }
    | some _ =>
      if ¬ st.aiEnabled then
        { st with msgs := st.msgs ++ ["Illustrations require the Librarian (AI offline).".data] }
      else
        match url with
        | some _ => { st with msgs := st.msgs ++ ["[An illustration bleeds through the page.]".data] }
        | none => { st with msgs := st.msgs ++ ["[The illustration fails to manifest.]".data] }

/-- The `close()` (lines 125–133). -/
def closeStep (st : BState) : BState :=
  match st.bookSession with
  | some s =>
    if s.bookId ≠ [] then
      { st with bookSession := some { s with active := false },
                msgs := st.msgs ++ ["You close ".data ++ s.title ++ ['.']] }
    else { st with msgs := st.msgs ++ ["No book is open.".data] }
  | none => { st with msgs := st.msgs ++ ["No book is open.".data] }

/-- The `resume()` (lines 135–140). -/
def resumeStep (st : BState) : BState :=
  match st.bookSession with
  | some s =>
    if s.bookId ≠ [] then
      let s' := { s with active := true }
      { st with bookSession := some s', msgs := st.msgs ++ renderMsgs s' }
    else { st with msgs := st.msgs ++ ["No book to resume.".data] }
  | none => { st with msgs := st.msgs ++ ["No book to resume.".data] }

/-- The `summary()` (lines 142–152): a pure read. -/
def summaryStep (st : BState) : BState :=
  match st.bookSession with
  | some s =>
    if s.bookId ≠ [] then
      { st with msgs := st.msgs ++ [('[' :: s.title ++ [']']) ++ "…".data] }
    else { st with msgs := st.msgs ++ ["No book is open.".data] }
  | none => { st with msgs := st.msgs ++ ["No book is open.".data] }

/-- Every externally reachable `BooksEngine` operation, with the outside
world's contributions (item lookup, AI responses) as constructor data. -/
inductive BOp where
  | openBook (found : Option (JStr × JStr)) (seed raw : JStr)
  | choose (token raw : JStr)
  | ask (answer : Option JStr)
  | draw (url : Option JStr)
  | close
  | resume
  | summary
  | ensure (isBook : Bool) (bookId name seed : JStr)
  | pageArrive (raw : JStr)

def applyBOp : BOp → BState → BState
  | .openBook found seed raw => openStep found seed raw
  | .choose token raw => chooseStep token raw
  | .ask answer => askStep answer
  | .draw url => drawStep url
  | .close => closeStep
  | .resume => resumeStep
  | .summary => summaryStep
  | .ensure isBook bookId name seed => ensureSession isBook bookId name seed
  | .pageArrive raw => generatePage raw

/-- The `current`-points-into-`pages` invariant, decidably. -/
def currentOk (s : Session) : Bool :=
  match s.current with
  | none => true
  | some c => (pagesGet c s.pages).isSome

def invB (st : BState) : Bool :=
  match st.bookSession with
  | none => true
  | some s => currentOk s

/-! ## The LLM rate limiter (`AIClient`, ai.js)

`callLLM` keeps two numbers: `lastLLMTime` (set to `Date.now()` when the
queued body starts) and `llmMinInterval` (1000 ms initially).  The pre-call
gate at lines 109–115 sleeps `llmMinInterval - (now - lastLLMTime)` when that
is positive; a 429 response multiplies `llmMinInterval` by 1.5 capped at
10 000 (line 151); a success multiplies by 0.9 floored at 1000 (line 171).
There is no `blockedUntil` field and the response's retry hint is never
read. -/

structure LLMClock where
  lastLLMTime : ℚ
  llmMinInterval : ℚ

/-- The constructor state (lines 23–24). -/
def llmInit : LLMClock := ⟨0, 1000⟩

/-- The time at which a call entering the gate at `now` performs its fetch:
after the line 112–115 sleep it is `lastLLMTime + llmMinInterval`, else
`now` (sequential picture: no competing writer moves `lastLLMTime` during
the sleep). -/
def dispatchTime (now : ℚ) (c : LLMClock) : ℚ :=
  if now - c.lastLLMTime < c.llmMinInterval then c.lastLLMTime + c.llmMinInterval else now

/-- Dispatch a call: returns the fetch time and the clock with
`lastLLMTime` stamped (line 118). -/
def llmDispatch (now : ℚ) (c : LLMClock) : ℚ × LLMClock :=
  let t := dispatchTime now c
  (t, { c with lastLLMTime := t })

/-- The 429 handler (line 151): `llmMinInterval = min(llmMinInterval * 1.5, 10000)`. -/
def llmAfter429 (c : LLMClock) : LLMClock :=
  { c with llmMinInterval := jsMinQ (c.llmMinInterval * (3 / 2)) 10000 }

/-- The success handler (line 171): `llmMinInterval = max(1000, llmMinInterval * 0.9)`. -/
def llmAfterSuccess (c : LLMClock) : LLMClock :=
  { c with llmMinInterval := jsMaxQ 1000 (c.llmMinInterval * (9 / 10)) }

/-! ## The request queue (`executeWithQueue`, ai.js lines 67–95)

A discrete-event model of the JavaScript event loop around the queue: an
`execute` that finds `_requestInFlight` set appends itself to
`_requestQueue`; otherwise it sets the flag and starts its network call.
When a call finishes, the flag clears and the queue's head — if any — is
rescheduled through `setTimeout(next, 100)`.  Externally supplied events are
task submissions `(time, id, duration)`; time ties are resolved completion
first, then timer, then submission. -/

structure QSim where
  now : Nat
  inFlight : Bool
  /-- The running call: its task id and completion time. -/
  running : Option (Nat × Nat)
  /-- `_requestQueue`: queued `(id, duration)` closures in push order. -/
  queue : List (Nat × Nat)
  /-- Pending `setTimeout` callbacks: `(fire time, id, duration)`. -/
  timers : List (Nat × Nat × Nat)
  /-- Pending submissions `(time, id, duration)`, ascending by time. -/
  subs : List (Nat × Nat × Nat)
  /-- The network-call log: `(id, start, end)` in dispatch order. -/
  calls : List (Nat × Nat × Nat)

/-- The body of `execute` at time `t`. -/
def qExecute (t tid dur : Nat) (st : QSim) : QSim :=
  if st.inFlight then { st with queue := st.queue ++ [(tid, dur)] }
  else
    { st with inFlight := true, running := some (tid, t + dur),
              calls := st.calls ++ [(tid, t, t + dur)] }

/-- The `a` is a scheduled instant no later than `b` (`none` = never). -/
def leOpt (a b : Option Nat) : Bool :=
  match a, b with
  | some x, some y => x ≤ y
  | some _, none => true
  | none, _ => false

/-- The completion time of the in-flight call, if any. -/
def compTime (st : QSim) : Option Nat :=
  match st.running with
  | some p => some p.2
  | none => none

/-- The fire time of the next `setTimeout`, if any. -/
def timerTime (st : QSim) : Option Nat :=
  match st.timers with
  | f :: _ => some f.1
  | [] => none

/-- The time of the next external submission, if any. -/
def subTime (st : QSim) : Option Nat :=
  match st.subs with
  | s :: _ => some s.1
  | [] => none

/-- One event-loop step: the earliest pending event fires. -/
def stepQSim (st : QSim) : Option QSim :=
  let tc : Option Nat := compTime st
  let tt : Option Nat := timerTime st
  let ts : Option Nat := subTime st
  if leOpt tc tt && leOpt tc ts then
    match st.running with
    | some (_, e) =>
      -- the `finally` block: clear the flag, reschedule the queue head after 100 ms
      let st1 := { st with now := e, inFlight := false, running := none }
      (match st1.queue with
       | [] => some st1
       | (tid', dur') :: rest =>
         some { st1 with queue := rest, timers := st1.timers ++ [(e + 100, tid', dur')] })
    | none => none
  else if leOpt tt ts then
    match st.timers with
    | (f, tid, dur) :: rest => some (qExecute f tid dur { st with now := f, timers := rest })
    | [] => none
  else
    match st.subs with
    | (t, tid, dur) :: rest => some (qExecute t tid dur { st with now := t, subs := rest })
    | [] => none

/-- Run the event loop for at most `fuel` events. -/
def runQSim : Nat → QSim → QSim
  | 0, st => st
  | fuel + 1, st =>
    match stepQSim st with
    | some st' => runQSim fuel st'
    | none => st

/-- The idle client with a pending submission schedule. -/
def qInit (subs : List (Nat × Nat × Nat)) : QSim :=
  ⟨0, false, none, [], [], subs, []⟩

/-- The submission list is ascending in time. -/
def subsSorted : List (Nat × Nat × Nat) → Bool
  | [] => true
  | [_] => true
  | a :: b :: rest => a.1 ≤ b.1 && subsSorted (b :: rest)

/-- Call intervals are well-formed and consecutive calls do not overlap. -/
def callsChain : List (Nat × Nat × Nat) → Bool
  | [] => true
  | [(_, s, e)] => s ≤ e
  | (_, s, e) :: (tid', s', e') :: rest =>
    s ≤ e && e ≤ s' && callsChain ((tid', s', e') :: rest)

/-- The ids of the logged calls, in dispatch order. -/
def callOrder (st : QSim) : List Nat := st.calls.map (·.1)

/-- The remainder after a printed number must not extend it. -/
def sepOk : JStr → Bool
  | [] => true
  | c :: _ => !isDigit c && !(c = '.') && !(c = 'e') && !(c = 'E')

/-- The printed-number separator condition, required only of number values. -/
def numSep : Json → JStr → Prop
  | .num _ _, r => sepOk r = true
  | _, _ => True

/-- The five mutual completeness statements at a given fuel. -/
def CompleteAt (fuel : Nat) : Prop :=
  (∀ v r, jweight v ≤ fuel → numSep v r →
    parseValue fuel (stringify v ++ r) = some (v, r)) ∧
  (∀ xs r, jweightA xs + 1 ≤ fuel →
    parseElems fuel (stringifyA xs ++ ']' :: r) = some (xs, r)) ∧
  (∀ x xs r, jweight x + jweightA xs + 1 ≤ fuel →
    parseElemsRest fuel (stringifyA (.cons x xs) ++ ']' :: r) = some (.cons x xs, r)) ∧
  (∀ fs r, jweightO fs + 1 ≤ fuel →
    parseMembers fuel (stringifyO fs ++ '}' :: r) = some (fs, r)) ∧
  (∀ k v fs r, jweight v + jweightO fs + 1 ≤ fuel →
    parseMembersRest fuel (stringifyO (.cons k v fs) ++ '}' :: r) = some (.cons k v fs, r))

/-- Lowercase ASCII letter, space, or period: the surrounding-prose alphabet
in the extraction scenarios. -/
def proseChar (c : Char) : Bool := ('a' ≤ c && c ≤ 'z') || c = ' ' || c = '.'

/-- The `{truth: 5}` effect object. -/
def truthEff : Json := .obj (.cons ("truth".data) (.num 5 0) .nil)

/-- The `{hp: -1000}` effect object. -/
def hpEff : Json := .obj (.cons ("hp".data) (.num (-1000) 0) .nil)

/-- The `{truth: "=0.3"}` effect object. -/
def setEff : Json := .obj (.cons ("truth".data) (.str ("=0.3".data)) .nil)

/-- The `{insight: -5}` effect object. -/
def insEff : Json := .obj (.cons ("insight".data) (.num (-5) 0) .nil)

/-- Iterated application of one effects object. -/
def applyEffectsN (eff : Json) : Nat → PlayerSt → PlayerSt
  | 0, p => p
  | n + 1, p => applyEffectsN eff n (applyEffects eff p)

/-- A choice carrying only a label (`"abstract"`). -/
def cLabel : Json := .obj (.cons ("label".data) (.str ("abstract".data)) .nil)

/-- A choice carrying only an id (`"ab"`). -/
def cId : Json := .obj (.cons ("id".data) (.str ("ab".data)) .nil)

/-- A rendered page whose choice list has the label-only choice first and the
exact-id choice second. -/
def pageC1 : Json :=
  .obj (.cons ("page_id".data) (.str ['p'])
    (.cons ("prose".data) (.str ['w'])
      (.cons ("choices".data) (.arr (.cons cLabel (.cons cId .nil))) .nil)))

/-- The all-zero player state. -/
def pl0 : PlayerSt := ⟨0, none, 0, 0, 100⟩

/-- An open session currently showing `pageC1`. -/
def sessC1 : Session := ⟨true, ['b'], ['B'], [], [(['p'], pageC1)], some ['p'], []⟩

def stC1 : BState := ⟨some sessC1, pl0, true, []⟩

/-- A choice with id `"go"`. -/
def cGo : Json := .obj (.cons ("id".data) (.str ['g', 'o']) .nil)

/-- A page offering only the `"go"` choice. -/
def pageC4 : Json :=
  .obj (.cons ("page_id".data) (.str ['q'])
    (.cons ("prose".data) (.str ['w'])
      (.cons ("choices".data) (.arr (.cons cGo .nil)) .nil)))

def sessC4 : Session := ⟨true, ['b'], ['B'], [], [(['q'], pageC4)], some ['q'], []⟩

def stC4 : BState := ⟨some sessC4, pl0, true, []⟩

/-- Conformance to the Page shape as the engine checks it: truthy `page_id`
and `prose`. -/
def pageShape (v : Json) : Bool :=
  jsTruthyOpt (getField v ("page_id".data)) && jsTruthyOpt (getField v ("prose".data))

/-- A minimal conforming page. -/
def fsC2 : JObj := .cons ("page_id".data) (.str ['p', '1']) (.cons ("prose".data) (.str ['w']) .nil)

/-- Prose with a stray pair of triple backticks around a number. -/
def preC2 : JStr := "x ``` 5 ``` y ".data

def postC2 : JStr := " z".data

/-- The end time of the last logged call. -/
def callsEnd (cs : List (Nat × Nat × Nat)) : Option Nat := cs.getLast?.map (fun c => c.2.2)

/-- The discrete-event invariant of the queue model: the flag mirrors the
in-flight call, logged calls never overlap, the running call is the last
logged one and ends no earlier than now, finished calls ended by now, pending
timers fire within the next 100 ms in order, and submissions are in the
future in ascending order. -/
def QInv (st : QSim) : Prop :=
  st.inFlight = st.running.isSome
  ∧ callsChain st.calls = true
  ∧ (∀ p : Nat × Nat, st.running = some p → st.now ≤ p.2 ∧ callsEnd st.calls = some p.2)
  ∧ (st.running = none → ∀ e, callsEnd st.calls = some e → e ≤ st.now)
  ∧ (∀ f ∈ st.timers, st.now ≤ f.1 ∧ f.1 ≤ st.now + 100)
  ∧ subsSorted st.timers = true
  ∧ subsSorted st.subs = true
  ∧ (∀ x ∈ st.subs, st.now ≤ x.1)

/-! ## Lemmas: decimal digits -/

theorem digitChar_isDigit {n : Nat} (h : n < 10) : isDigit (digitChar n) = true := by
  interval_cases n <;> decide

theorem digitVal_digitChar {n : Nat} (h : n < 10) : digitVal (digitChar n) = n := by
  interval_cases n <;> decide

theorem digitsToNat_from (ds : JStr) (acc : Nat) :
    ds.foldl (fun a c => a * 10 + digitVal c) acc = acc * 10 ^ ds.length + digitsToNat ds := by
  induction ds generalizing acc with
  | nil => simp [digitsToNat]
  | cons c t ih =>
    simp only [digitsToNat, List.foldl_cons, List.length_cons]
    rw [ih (acc * 10 + digitVal c), ih (0 * 10 + digitVal c)]
    ring

theorem digitsToNat_cons (c : Char) (t : JStr) :
    digitsToNat (c :: t) = digitVal c * 10 ^ t.length + digitsToNat t := by
  simpa [digitsToNat] using digitsToNat_from t (digitVal c)

theorem digitsToNat_append (a b : JStr) :
    digitsToNat (a ++ b) = digitsToNat a * 10 ^ b.length + digitsToNat b := by
  simp only [digitsToNat, List.foldl_append]
  rw [digitsToNat_from b (List.foldl _ 0 a)]
  rfl

theorem digitsToNat_replicate_zero (j : Nat) (b : JStr) :
    digitsToNat (List.replicate j '0' ++ b) = digitsToNat b := by
  rw [digitsToNat_append]
  have : digitsToNat (List.replicate j '0') = 0 := by
    induction j with
    | zero => rfl
    | succ k ih =>
      rw [List.replicate_succ, digitsToNat_cons, ih]
      simp [digitVal]
  simp [this]

theorem natDecF_spec :
    ∀ fuel n, n < 10 ^ fuel →
      digitsToNat (natDecF fuel n) = n ∧ ∀ c ∈ natDecF fuel n, isDigit c = true := by
  intro fuel
  induction fuel with
  | zero =>
    intro n h
    interval_cases n
    exact ⟨rfl, by simp [natDecF]⟩
  | succ f ih =>
    intro n h
    by_cases h10 : n < 10
    · refine ⟨?_, ?_⟩
      · simp [natDecF, h10, digitsToNat_cons, digitVal_digitChar h10, digitsToNat]
      · simp only [natDecF, if_pos h10, List.mem_singleton]
        rintro c rfl
        exact digitChar_isDigit h10
    · have hdiv : n / 10 < 10 ^ f := by
        rw [Nat.div_lt_iff_lt_mul (by norm_num)]
        calc n < 10 ^ (f + 1) := h
        _ = 10 ^ f * 10 := by ring
      obtain ⟨ihv, ihd⟩ := ih (n / 10) hdiv
      refine ⟨?_, ?_⟩
      · simp only [natDecF, if_neg h10, digitsToNat_append, ihv, List.length_singleton]
        have : digitsToNat [digitChar (n % 10)] = n % 10 := by
          simp [digitsToNat_cons, digitsToNat, digitVal_digitChar (Nat.mod_lt n (by norm_num))]
        rw [this]
        omega
      · simp only [natDecF, if_neg h10, List.mem_append, List.mem_singleton]
        rintro c (hc | rfl)
        · exact ihd c hc
        · exact digitChar_isDigit (Nat.mod_lt n (by norm_num))

theorem lt_ten_pow_succ (n : Nat) : n < 10 ^ (n + 1) := by
  calc n < 2 ^ n := Nat.lt_two_pow n
  _ ≤ 10 ^ n := Nat.pow_le_pow_left (by norm_num) n
  _ ≤ 10 ^ (n + 1) := Nat.pow_le_pow_right (by norm_num) (Nat.le_succ n)

theorem natDec_val (n : Nat) : digitsToNat (natDec n) = n :=
  (natDecF_spec (n + 1) n (lt_ten_pow_succ n)).1

theorem natDec_digits (n : Nat) : ∀ c ∈ natDec n, isDigit c = true :=
  (natDecF_spec (n + 1) n (lt_ten_pow_succ n)).2

theorem natDec_ne_nil (n : Nat) : natDec n ≠ [] := by
  unfold natDec natDecF
  by_cases h : n < 10 <;> simp [h]

/-! ## Lemmas: takeWhile / dropWhile over appends -/

theorem takeWhile_append_all {p : Char → Bool} :
    ∀ {a : JStr} (b : JStr), (∀ c ∈ a, p c = true) → (a ++ b).takeWhile p = a ++ b.takeWhile p := by
  intro a
  induction a with
  | nil => simp
  | cons c t ih =>
    intro b h
    have hc : p c = true := h c (List.mem_cons_self c t)
    simp only [List.cons_append, List.takeWhile_cons, hc, ite_true, List.cons.injEq, true_and]
    exact ih b (fun x hx => h x (List.mem_cons_of_mem c hx))

theorem dropWhile_append_all {p : Char → Bool} :
    ∀ {a : JStr} (b : JStr), (∀ c ∈ a, p c = true) → (a ++ b).dropWhile p = b.dropWhile p := by
  intro a
  induction a with
  | nil => simp
  | cons c t ih =>
    intro b h
    have hc : p c = true := h c (List.mem_cons_self c t)
    simp only [List.cons_append, List.dropWhile_cons, hc, ite_true]
    exact ih b (fun x hx => h x (List.mem_cons_of_mem c hx))

/-- The `takeWhile` collects nothing when the head already fails the predicate. -/
theorem takeWhile_head_false {p : Char → Bool} :
    ∀ {b : JStr}, (∀ c, b.head? = some c → p c = false) → b.takeWhile p = [] := by
  intro b h
  cases b with
  | nil => rfl
  | cons c t => simp [List.takeWhile_cons, h c rfl]

theorem dropWhile_head_false {p : Char → Bool} :
    ∀ {b : JStr}, (∀ c, b.head? = some c → p c = false) → b.dropWhile p = b := by
  intro b h
  cases b with
  | nil => rfl
  | cons c t => simp [List.dropWhile_cons, h c rfl]

/-! ## Lemmas: string escaping round trip -/

theorem hexVal_hexDigit {n : Nat} (h : n < 16) : hexVal (hexDigit n) = some n := by
  interval_cases n <;> decide

theorem parseStrBody_esc (s : JStr) (r : JStr) :
    parseStrBody (escStr s ++ '"' :: r) = some (s, r) := by
  induction s with
  | nil =>
    rw [show escStr [] ++ '"' :: r = '"' :: r by simp [escStr]]
    rw [parseStrBody.eq_def]
    simp
  | cons c t ih =>
    have step : escStr (c :: t) ++ '"' :: r = escChar c ++ (escStr t ++ '"' :: r) := by
      simp [escStr, List.flatMap_cons, List.append_assoc]
    rw [step]
    by_cases h1 : c = '"'
    · subst h1
      rw [show escChar '"' = ['\\', '"'] from rfl]
      simp only [List.cons_append, List.nil_append]
      rw [parseStrBody.eq_def]
      simp [unescape1, ih]
    by_cases h2 : c = '\\'
    · subst h2
      rw [show escChar '\\' = ['\\', '\\'] from rfl]
      simp only [List.cons_append, List.nil_append]
      rw [parseStrBody.eq_def]
      simp [unescape1, ih]
    by_cases h3 : c = '\n'
    · subst h3
      rw [show escChar '\n' = ['\\', 'n'] from rfl]
      simp only [List.cons_append, List.nil_append]
      rw [parseStrBody.eq_def]
      simp [unescape1, ih]
    by_cases h4 : c = '\r'
    · subst h4
      rw [show escChar '\r' = ['\\', 'r'] from rfl]
      simp only [List.cons_append, List.nil_append]
      rw [parseStrBody.eq_def]
      simp [unescape1, ih]
    by_cases h5 : c = '\t'
    · subst h5
      rw [show escChar '\t' = ['\\', 't'] from rfl]
      simp only [List.cons_append, List.nil_append]
      rw [parseStrBody.eq_def]
      simp [unescape1, ih]
    by_cases h6 : c = '\x08'
    · subst h6
      rw [show escChar '\x08' = ['\\', 'b'] from rfl]
      simp only [List.cons_append, List.nil_append]
      rw [parseStrBody.eq_def]
      simp [unescape1, ih]
    by_cases h7 : c = '\x0c'
    · subst h7
      rw [show escChar '\x0c' = ['\\', 'f'] from rfl]
      simp only [List.cons_append, List.nil_append]
      rw [parseStrBody.eq_def]
      simp [unescape1, ih]
    by_cases h8 : c.toNat < 0x20
    · have e1 : escChar c =
          ['\\', 'u', '0', '0', hexDigit (c.toNat / 16), hexDigit (c.toNat % 16)] := by
        simp [escChar, h1, h2, h3, h4, h5, h6, h7, h8]
      have hdiv : c.toNat / 16 < 16 := by omega
      have hmod : c.toNat % 16 < 16 := by omega
      have hchar : Char.ofNat (c.toNat / 16 * 16 + c.toNat % 16) = c := by
        have harith : c.toNat / 16 * 16 + c.toNat % 16 = c.toNat := by omega
        rw [harith, Char.ofNat_toNat]
      rw [e1]
      simp only [List.cons_append, List.nil_append]
      rw [parseStrBody.eq_def]
      simp [show hexVal '0' = some 0 from rfl, hexVal_hexDigit hdiv, hexVal_hexDigit hmod,
        ih, hchar]
    · have e1 : escChar c = [c] := by
        simp [escChar, h1, h2, h3, h4, h5, h6, h7, h8]
      rw [e1]
      simp only [List.cons_append, List.nil_append]
      rw [parseStrBody.eq_def]
      simp [h1, h2, ih]

/-! ## Lemmas: number printing round trip -/

theorem sepOk_cons {c : Char} {t : JStr} (hr : sepOk (c :: t) = true) :
    isDigit c = false ∧ c ≠ '.' ∧ c ≠ 'e' ∧ c ≠ 'E' := by
  simp only [sepOk, Bool.and_eq_true, Bool.not_eq_true', decide_eq_true_eq,
    Bool.not_eq_true] at hr
  obtain ⟨⟨⟨h1, h2⟩, h3⟩, h4⟩ := hr
  exact ⟨h1, by simpa using h2, by simpa using h3, by simpa using h4⟩

theorem sepOk_not_digit {r : JStr} (hr : sepOk r = true) :
    ∀ c, r.head? = some c → isDigit c = false := by
  intro c hc
  cases r with
  | nil => cases hc
  | cons c' t =>
    obtain rfl : c' = c := by simpa using hc
    exact (sepOk_cons hr).1

theorem finishNum_done (neg : Bool) (i f e : Nat) (r : JStr) (hr : sepOk r = true) :
    finishNum neg i f e r =
      some (.num (if neg then -((i * 10 ^ e + f : Nat) : Int) else ((i * 10 ^ e + f : Nat) : Int))
        e, r) := by
  cases r with
  | nil => simp [finishNum]
  | cons c t =>
    have h1 : ¬(c = 'e' ∨ c = 'E') := by
      obtain ⟨-, -, h3, h4⟩ := sepOk_cons hr
      rintro (rfl | rfl)
      · exact h3 rfl
      · exact h4 rfl
    simp [finishNum, h1]

theorem padZeros_digits (a e : Nat) :
    ∀ c ∈ padZeros (e + 1) (natDec a), isDigit c = true := by
  intro c hc
  rw [padZeros, List.mem_append] at hc
  rcases hc with hc | hc
  · rw [List.eq_of_mem_replicate hc]
    decide
  · exact natDec_digits a c hc

theorem padZeros_length_ge (k : Nat) (x : JStr) : k ≤ (padZeros k x).length := by
  simp [padZeros]
  omega

theorem parseNumBody_numLitNat (neg : Bool) (a e : Nat) (r : JStr) (hr : sepOk r = true) :
    parseNumBody neg (numLitNat a e ++ r) =
      some (.num (if neg then -(a : Int) else (a : Int)) e, r) := by
  have hrd := sepOk_not_digit hr
  by_cases he : e = 0
  · subst he
    have htake : (natDec a ++ r).takeWhile isDigit = natDec a := by
      rw [takeWhile_append_all r (natDec_digits a), takeWhile_head_false hrd, List.append_nil]
    have hdrop : (natDec a ++ r).dropWhile isDigit = r := by
      rw [dropWhile_append_all r (natDec_digits a), dropWhile_head_false hrd]
    rw [numLitNat, if_pos rfl, parseNumBody]
    simp only [htake, hdrop]
    rw [if_neg (natDec_ne_nil a)]
    cases r with
    | nil =>
      rw [show parseFrac neg (digitsToNat (natDec a)) [] =
        finishNum neg (digitsToNat (natDec a)) 0 0 [] from rfl]
      rw [finishNum_done neg _ 0 0 [] rfl]
      simp [natDec_val]
    | cons c t =>
      obtain ⟨hcd, hcdot, -, -⟩ := sepOk_cons hr
      rw [parseFrac, if_neg hcdot, finishNum_done neg _ 0 0 (c :: t) hr]
      simp [natDec_val]
  · set ds0 := padZeros (e + 1) (natDec a) with hds0
    have hlen : e + 1 ≤ ds0.length := padZeros_length_ge _ _
    have hdig : ∀ c ∈ ds0, isDigit c = true := padZeros_digits a e
    set tk := ds0.take (ds0.length - e) with htk
    set dr := ds0.drop (ds0.length - e) with hdr
    have htkdig : ∀ c ∈ tk, isDigit c = true := fun c hc => hdig c (List.take_subset _ _ hc)
    have hdrdig : ∀ c ∈ dr, isDigit c = true := fun c hc => hdig c (List.drop_subset _ _ hc)
    have htklen : tk.length = ds0.length - e := by
      rw [htk, List.length_take]
      omega
    have hdrlen : dr.length = e := by
      rw [hdr, List.length_drop]
      omega
    have htkne : tk ≠ [] := by
      intro h
      rw [h] at htklen
      simp at htklen
      omega
    have hdrne : dr ≠ [] := by
      intro h
      rw [h] at hdrlen
      simp at hdrlen
      omega
    have hsplit : numLitNat a e ++ r = tk ++ ('.' :: (dr ++ r)) := by
      rw [numLitNat, if_neg he]
      simp [htk, hdr]
    rw [hsplit, parseNumBody]
    have hdotd : isDigit '.' = false := by decide
    have htake : (tk ++ '.' :: (dr ++ r)).takeWhile isDigit = tk := by
      rw [takeWhile_append_all _ htkdig]
      simp [List.takeWhile_cons, hdotd]
    have hdrop : (tk ++ '.' :: (dr ++ r)).dropWhile isDigit = '.' :: (dr ++ r) := by
      rw [dropWhile_append_all _ htkdig]
      simp [List.dropWhile_cons, hdotd]
    simp only [htake, hdrop]
    rw [if_neg htkne, parseFrac, if_pos rfl]
    have hfs : (dr ++ r).takeWhile isDigit = dr := by
      rw [takeWhile_append_all r hdrdig, takeWhile_head_false hrd, List.append_nil]
    have hfsd : (dr ++ r).dropWhile isDigit = r := by
      rw [dropWhile_append_all r hdrdig, dropWhile_head_false hrd]
    simp only [hfs, hfsd]
    rw [if_neg hdrne, finishNum_done neg _ _ _ r hr]
    have hval : digitsToNat tk * 10 ^ dr.length + digitsToNat dr = a := by
      rw [← digitsToNat_append, htk, hdr, List.take_append_drop, hds0, padZeros,
        digitsToNat_replicate_zero, natDec_val]
    rw [hdrlen] at hval ⊢
    rw [hval]

theorem numLitNat_ne_nil (a e : Nat) : numLitNat a e ≠ [] := by
  by_cases he : e = 0
  · subst he
    rw [numLitNat, if_pos rfl]
    exact natDec_ne_nil a
  · rw [numLitNat, if_neg he]
    simp

theorem numLitNat_head_digit (a e : Nat) :
    ∀ c cs, numLitNat a e = c :: cs → isDigit c = true := by
  intro c cs h
  by_cases he : e = 0
  · subst he
    rw [numLitNat, if_pos rfl] at h
    exact natDec_digits a c (h ▸ List.mem_cons_self c cs)
  · rw [numLitNat, if_neg he] at h
    set ds0 := padZeros (e + 1) (natDec a) with hds0
    set tk := ds0.take (ds0.length - e) with htk
    have hlen : e + 1 ≤ ds0.length := padZeros_length_ge _ _
    have htkne : tk ≠ [] := by
      intro hh
      have := congrArg List.length hh
      simp [htk, List.length_take] at this
      omega
    obtain ⟨d, ds, hd⟩ := List.exists_cons_of_ne_nil htkne
    rw [hd, List.cons_append, List.cons.injEq] at h
    obtain ⟨hdc, -⟩ := h
    rw [← hdc]
    have hmem : d ∈ tk := by
      rw [hd]
      exact List.mem_cons_self d ds
    exact padZeros_digits a e d (List.take_subset _ _ hmem)

theorem parseNum_numLit (m : Int) (e : Nat) (r : JStr) (hr : sepOk r = true) :
    parseNum (numLit m e ++ r) = some (.num m e, r) := by
  by_cases hm : m < 0
  · have h1 : numLit m e ++ r = '-' :: (numLitNat m.natAbs e ++ r) := by
      rw [numLit, if_pos hm]
      simp
    have hsm : splitMinus ('-' :: (numLitNat m.natAbs e ++ r)) =
        (true, numLitNat m.natAbs e ++ r) := rfl
    rw [h1, parseNum, hsm]
    show parseNumBody true (numLitNat m.natAbs e ++ r) = some (Json.num m e, r)
    rw [parseNumBody_numLitNat true _ e r hr]
    have hneg : -((m.natAbs : Nat) : Int) = m := by omega
    simp only [if_true]
    rw [hneg]
  · have h1 : numLit m e ++ r = numLitNat m.natAbs e ++ r := by
      rw [numLit, if_neg hm]
      simp
    obtain ⟨c, cs, hcons⟩ := List.exists_cons_of_ne_nil (numLitNat_ne_nil m.natAbs e)
    have hcdig : isDigit c = true := numLitNat_head_digit m.natAbs e c cs hcons
    have hcminus : ¬c = '-' := by
      intro h
      rw [h] at hcdig
      exact absurd hcdig (by decide)
    have hsm : splitMinus (numLitNat m.natAbs e ++ r) =
        (false, numLitNat m.natAbs e ++ r) := by
      rw [hcons, List.cons_append, splitMinus]
      simp [hcminus]
    rw [h1, parseNum, hsm]
    show parseNumBody false (numLitNat m.natAbs e ++ r) = some (Json.num m e, r)
    rw [parseNumBody_numLitNat false _ e r hr]
    have hpos : ((m.natAbs : Nat) : Int) = m := by omega
    simp only [Bool.false_eq_true, if_false]
    rw [hpos]

/-! ## Lemmas: parser completeness on printed values -/

theorem isWs_cases {c : Char} (h : isWs c = true) :
    c = ' ' ∨ c = '\t' ∨ c = '\n' ∨ c = '\r' := by
  simp only [isWs, Bool.or_eq_true, decide_eq_true_eq] at h
  tauto

theorem isDigit_not_ws {c : Char} (h : isDigit c = true) : isWs c = false := by
  by_cases hw : isWs c = true
  · rcases isWs_cases hw with rfl | rfl | rfl | rfl <;> exact absurd h (by decide)
  · simpa using hw

theorem isDigit_ne_of {c d : Char} (h : isDigit c = true) (hd : isDigit d = false) :
    c ≠ d := by
  intro he
  rw [he, hd] at h
  cases h

theorem skipWs_cons {c : Char} (t : JStr) (h : isWs c = false) : skipWs (c :: t) = c :: t := by
  simp [skipWs, List.dropWhile_cons, h]

theorem isPrefixOf_append_self (a b : JStr) : a.isPrefixOf (a ++ b) = true := by
  rw [ List.isPrefixOf_iff_prefix]
  exact List.prefix_append a b

theorem jweight_pos (v : Json) : 1 ≤ jweight v := by
  cases v <;> simp [jweight] <;> omega

theorem sepOk_rbracket (t : JStr) : sepOk (']' :: t) = true := rfl

theorem sepOk_rbrace (t : JStr) : sepOk ('}' :: t) = true := rfl

theorem sepOk_comma (t : JStr) : sepOk (',' :: t) = true := rfl

/-- The separator condition holds for any value when the remainder cannot
extend a number. -/
theorem numSep_of_sepOk {v : Json} {r : JStr} (h : sepOk r = true) : numSep v r := by
  cases v <;> first | trivial | exact h

/-- The head character of any printed value: never whitespace and never a
structural delimiter. -/
theorem stringify_head_spec (v : Json) :
    ∃ c t, stringify v = c :: t ∧ isWs c = false ∧ c ≠ ']' ∧ c ≠ '}' ∧ c ≠ ',' ∧ c ≠ ':' := by
  cases v with
  | null => exact ⟨'n', _, rfl, by decide, by decide, by decide, by decide, by decide⟩
  | bool b =>
    cases b with
    | true => exact ⟨'t', _, rfl, by decide, by decide, by decide, by decide, by decide⟩
    | false => exact ⟨'f', _, rfl, by decide, by decide, by decide, by decide, by decide⟩
  | num m e =>
    by_cases hm : m < 0
    · refine ⟨'-', numLitNat m.natAbs e, ?_, by decide, by decide, by decide, by decide,
        by decide⟩
      rw [show stringify (.num m e) = numLit m e from rfl, numLit, if_pos hm]
      rfl
    · obtain ⟨c, cs, hcons⟩ := List.exists_cons_of_ne_nil (numLitNat_ne_nil m.natAbs e)
      have hcd := numLitNat_head_digit m.natAbs e c cs hcons
      refine ⟨c, cs, ?_, isDigit_not_ws hcd, isDigit_ne_of hcd (by decide),
        isDigit_ne_of hcd (by decide), isDigit_ne_of hcd (by decide),
        isDigit_ne_of hcd (by decide)⟩
      rw [show stringify (.num m e) = numLit m e from rfl, numLit, if_neg hm]
      simpa using hcons
  | str s => exact ⟨'"', _, rfl, by decide, by decide, by decide, by decide, by decide⟩
  | arr xs => exact ⟨'[', _, rfl, by decide, by decide, by decide, by decide, by decide⟩
  | obj fs => exact ⟨'{', _, rfl, by decide, by decide, by decide, by decide, by decide⟩

/-! ### One-step unfolding equations for the parser -/

theorem parseValue_n (fuel : Nat) (rest : JStr) :
    parseValue (fuel + 1) ('n' :: rest) =
      (if ['u', 'l', 'l'].isPrefixOf rest then some (.null, rest.drop 3) else none) := rfl

theorem parseValue_t (fuel : Nat) (rest : JStr) :
    parseValue (fuel + 1) ('t' :: rest) =
      (if ['r', 'u', 'e'].isPrefixOf rest then some (.bool true, rest.drop 3) else none) := rfl

theorem parseValue_f (fuel : Nat) (rest : JStr) :
    parseValue (fuel + 1) ('f' :: rest) =
      (if ['a', 'l', 's', 'e'].isPrefixOf rest then some (.bool false, rest.drop 4)
       else none) := rfl

theorem parseValue_quote (fuel : Nat) (rest : JStr) :
    parseValue (fuel + 1) ('"' :: rest) =
      (match parseStrBody rest with
       | some (cs, r) => some (.str cs, r)
       | none => none) := rfl

theorem parseValue_lbracket (fuel : Nat) (rest : JStr) :
    parseValue (fuel + 1) ('[' :: rest) =
      (match parseElems fuel rest with
       | some (xs, r) => some (.arr xs, r)
       | none => none) := rfl

theorem parseValue_lbrace (fuel : Nat) (rest : JStr) :
    parseValue (fuel + 1) ('{' :: rest) =
      (match parseMembers fuel rest with
       | some (fs, r) => some (.obj fs, r)
       | none => none) := rfl

theorem parseValue_minus (fuel : Nat) (rest : JStr) :
    parseValue (fuel + 1) ('-' :: rest) = parseNum ('-' :: rest) := rfl

theorem parseValue_digit (fuel : Nat) (c : Char) (rest : JStr) (hcd : isDigit c = true) :
    parseValue (fuel + 1) (c :: rest) = parseNum (c :: rest) := by
  rw [parseValue.eq_def]
  simp only [skipWs_cons _ (isDigit_not_ws hcd), hcd,
    isDigit_ne_of hcd (by decide : isDigit '{' = false),
    isDigit_ne_of hcd (by decide : isDigit '[' = false),
    isDigit_ne_of hcd (by decide : isDigit '"' = false),
    isDigit_ne_of hcd (by decide : isDigit 't' = false),
    isDigit_ne_of hcd (by decide : isDigit 'f' = false),
    isDigit_ne_of hcd (by decide : isDigit 'n' = false),
    Bool.or_true, if_false, ite_false, ite_true, if_true]

theorem parseElems_rb (fuel : Nat) (r : JStr) :
    parseElems (fuel + 1) (']' :: r) = some (.nil, r) := rfl

theorem parseElems_go (fuel : Nat) (c : Char) (s : JStr) (hw : isWs c = false)
    (hne : c ≠ ']') : parseElems (fuel + 1) (c :: s) = parseElemsRest fuel (c :: s) := by
  rw [parseElems.eq_def]
  simp only [skipWs_cons _ hw, hne, if_false, ite_false]

theorem parseElemsRest_step (fuel : Nat) (s : JStr) :
    parseElemsRest (fuel + 1) s =
      (match parseValue fuel s with
       | some (v, r) =>
         (match skipWs r with
          | [] => none
          | c :: r2 =>
            if c = ',' then
              match parseElemsRest fuel r2 with
              | some (xs, r3) => some (.cons v xs, r3)
              | none => none
            else if c = ']' then some (.cons v .nil, r2)
            else none)
       | none => none) := rfl

theorem parseMembers_rb (fuel : Nat) (r : JStr) :
    parseMembers (fuel + 1) ('}' :: r) = some (.nil, r) := rfl

theorem parseMembers_go (fuel : Nat) (c : Char) (s : JStr) (hw : isWs c = false)
    (hne : c ≠ '}') : parseMembers (fuel + 1) (c :: s) = parseMembersRest fuel (c :: s) := by
  rw [parseMembers.eq_def]
  simp only [skipWs_cons _ hw, hne, if_false, ite_false]

theorem parseMembersRest_step (fuel : Nat) (s : JStr) :
    parseMembersRest (fuel + 1) s =
      (match skipWs s with
       | [] => none
       | c :: rest =>
         if c = '"' then
           match parseStrBody rest with
           | some (k, r) =>
             (match skipWs r with
              | [] => none
              | c2 :: r2 =>
                if c2 = ':' then
                  match parseValue fuel r2 with
                  | some (v, r3) =>
                    (match skipWs r3 with
                     | [] => none
                     | c3 :: r4 =>
                       if c3 = ',' then
                         match parseMembersRest fuel r4 with
                         | some (fs, r5) => some (.cons k v fs, r5)
                         | none => none
                       else if c3 = '}' then some (.cons k v .nil, r4)
                       else none)
                  | none => none
                else none)
           | none => none
         else none) := rfl

theorem parseMembersRest_quote (fuel : Nat) (rest : JStr) :
    parseMembersRest (fuel + 1) ('"' :: rest) =
      (match parseStrBody rest with
       | some (k, r) =>
         (match skipWs r with
          | [] => none
          | c2 :: r2 =>
            if c2 = ':' then
              match parseValue fuel r2 with
              | some (v, r3) =>
                (match skipWs r3 with
                 | [] => none
                 | c3 :: r4 =>
                   if c3 = ',' then
                     match parseMembersRest fuel r4 with
                     | some (fs, r5) => some (.cons k v fs, r5)
                     | none => none
                   else if c3 = '}' then some (.cons k v .nil, r4)
                   else none)
              | none => none
            else none)
       | none => none) := rfl

theorem parse_complete_all : ∀ fuel, CompleteAt fuel := by
  intro fuel
  induction fuel with
  | zero =>
    refine ⟨?_, ?_, ?_, ?_, ?_⟩
    · intro v r hw
      exact absurd hw (by have := jweight_pos v; omega)
    · intro xs r hw
      omega
    · intro x xs r hw
      omega
    · intro fs r hw
      omega
    · intro k v fs r hw
      omega
  | succ g ih =>
    obtain ⟨ihV, ihB, ihC, ihD, ihE⟩ := ih
    have hV : ∀ v r, jweight v ≤ g + 1 → numSep v r →
        parseValue (g + 1) (stringify v ++ r) = some (v, r) := by
      intro v r hw hsep
      cases v with
      | null =>
        rw [show stringify Json.null ++ r = 'n' :: ('u' :: 'l' :: 'l' :: r) from rfl,
          parseValue_n]
        have hp : (['u', 'l', 'l'] : JStr).isPrefixOf ('u' :: 'l' :: 'l' :: r) = true := by
          rw [show ('u' :: 'l' :: 'l' :: r : JStr) = ['u', 'l', 'l'] ++ r from rfl]
          exact isPrefixOf_append_self _ _
        rw [hp]
        simp
      | bool b =>
        cases b with
        | true =>
          rw [show stringify (Json.bool true) ++ r = 't' :: ('r' :: 'u' :: 'e' :: r) from rfl,
            parseValue_t]
          have hp : (['r', 'u', 'e'] : JStr).isPrefixOf ('r' :: 'u' :: 'e' :: r) = true := by
            rw [show ('r' :: 'u' :: 'e' :: r : JStr) = ['r', 'u', 'e'] ++ r from rfl]
            exact isPrefixOf_append_self _ _
          rw [hp]
          simp
        | false =>
          rw [show stringify (Json.bool false) ++ r =
            'f' :: ('a' :: 'l' :: 's' :: 'e' :: r) from rfl, parseValue_f]
          have hp : (['a', 'l', 's', 'e'] : JStr).isPrefixOf
              ('a' :: 'l' :: 's' :: 'e' :: r) = true := by
            rw [show ('a' :: 'l' :: 's' :: 'e' :: r : JStr) = ['a', 'l', 's', 'e'] ++ r from rfl]
            exact isPrefixOf_append_self _ _
          rw [hp]
          simp
      | num m e =>
        have hsep' : sepOk r = true := hsep
        rw [show stringify (Json.num m e) = numLit m e from rfl]
        by_cases hm : m < 0
        · have h1 : numLit m e ++ r = '-' :: (numLitNat m.natAbs e ++ r) := by
            rw [numLit, if_pos hm]
            simp
          rw [h1, parseValue_minus, ← h1]
          exact parseNum_numLit m e r hsep'
        · obtain ⟨c, cs, hcons⟩ := List.exists_cons_of_ne_nil (numLitNat_ne_nil m.natAbs e)
          have hcd := numLitNat_head_digit m.natAbs e c cs hcons
          have h1 : numLit m e ++ r = c :: (cs ++ r) := by
            rw [numLit, if_neg hm]
            simp [hcons]
          rw [h1, parseValue_digit g c _ hcd, ← h1]
          exact parseNum_numLit m e r hsep'
      | str s =>
        rw [show stringify (Json.str s) ++ r = '"' :: (escStr s ++ '"' :: r) by
          simp [stringify, strLit], parseValue_quote, parseStrBody_esc s r]
      | arr xs =>
        rw [show stringify (Json.arr xs) ++ r = '[' :: (stringifyA xs ++ ']' :: r) by
          simp [stringify], parseValue_lbracket,
          ihB xs r (by simp [jweight] at hw; omega)]
      | obj fs =>
        rw [show stringify (Json.obj fs) ++ r = '{' :: (stringifyO fs ++ '}' :: r) by
          simp [stringify], parseValue_lbrace,
          ihD fs r (by simp [jweight] at hw; omega)]
    have hC : ∀ x xs r, jweight x + jweightA xs + 1 ≤ g + 1 →
        parseElemsRest (g + 1) (stringifyA (.cons x xs) ++ ']' :: r) = some (.cons x xs, r) := by
      intro x xs r hw
      cases xs with
      | nil =>
        rw [show stringifyA (JArr.cons x .nil) ++ ']' :: r = stringify x ++ ']' :: r from rfl,
          parseElemsRest_step,
          ihV x (']' :: r) (by simp [jweightA] at hw; omega)
            (numSep_of_sepOk (sepOk_rbracket r))]
        rfl
      | cons y ys =>
        have hsplit : stringifyA (JArr.cons x (JArr.cons y ys)) ++ ']' :: r =
            stringify x ++ (',' :: (stringifyA (JArr.cons y ys) ++ ']' :: r)) := by
          rw [show stringifyA (JArr.cons x (JArr.cons y ys)) =
            stringify x ++ ',' :: stringifyA (JArr.cons y ys) from rfl]
          simp
        have hyw : jweight y + jweightA ys + 1 ≤ g := by
          have := jweight_pos x
          simp [jweightA] at hw
          omega
        rw [hsplit, parseElemsRest_step,
          ihV x _ (by simp [jweightA] at hw; have := jweight_pos y; omega)
            (numSep_of_sepOk (sepOk_comma _))]
        show (match parseElemsRest g (stringifyA (JArr.cons y ys) ++ ']' :: r) with
              | some (xs, r3) => some (JArr.cons x xs, r3)
              | none => none) = some (JArr.cons x (JArr.cons y ys), r)
        rw [ihC y ys r hyw]
    have hB : ∀ xs r, jweightA xs + 1 ≤ g + 1 →
        parseElems (g + 1) (stringifyA xs ++ ']' :: r) = some (xs, r) := by
      intro xs r hw
      cases xs with
      | nil =>
        rw [show stringifyA JArr.nil ++ ']' :: r = ']' :: r from rfl, parseElems_rb]
      | cons x xs' =>
        obtain ⟨c, t, hct, hcw, hne1, hne2, hne3, hne4⟩ := stringify_head_spec x
        have hw' : jweight x + jweightA xs' + 1 ≤ g := by
          simp [jweightA] at hw
          omega
        have hu : ∃ u, stringifyA (JArr.cons x xs') ++ ']' :: r = c :: u := by
          cases xs' with
          | nil =>
            exact ⟨t ++ ']' :: r, by
              rw [show stringifyA (JArr.cons x .nil) = stringify x from rfl, hct]
              simp⟩
          | cons y ys =>
            exact ⟨t ++ ',' :: stringifyA (JArr.cons y ys) ++ ']' :: r, by
              rw [show stringifyA (JArr.cons x (JArr.cons y ys)) =
                stringify x ++ ',' :: stringifyA (JArr.cons y ys) from rfl, hct]
              simp⟩
        obtain ⟨u, huv⟩ := hu
        rw [huv, parseElems_go g c u hcw hne1, ← huv]
        exact ihC x xs' r hw'
    have hE : ∀ k v fs r, jweight v + jweightO fs + 1 ≤ g + 1 →
        parseMembersRest (g + 1) (stringifyO (.cons k v fs) ++ '}' :: r) =
          some (.cons k v fs, r) := by
      intro k v fs r hw
      cases fs with
      | nil =>
        have hsplit : stringifyO (JObj.cons k v .nil) ++ '}' :: r =
            '"' :: (escStr k ++ '"' :: (':' :: (stringify v ++ '}' :: r))) := by
          rw [show stringifyO (JObj.cons k v .nil) = strLit k ++ ':' :: stringify v from rfl]
          simp [strLit]
        rw [hsplit, parseMembersRest_quote, parseStrBody_esc k _]
        show (match parseValue g (stringify v ++ '}' :: r) with
              | some (v1, r3) =>
                (match skipWs r3 with
                 | [] => none
                 | c3 :: r4 =>
                   if c3 = ',' then
                     match parseMembersRest g r4 with
                     | some (fs, r5) => some (JObj.cons k v1 fs, r5)
                     | none => none
                   else if c3 = '}' then some (JObj.cons k v1 JObj.nil, r4)
                   else none)
              | none => none) = some (JObj.cons k v JObj.nil, r)
        rw [ihV v ('}' :: r) (by simp [jweightO] at hw; omega)
          (numSep_of_sepOk (sepOk_rbrace r))]
        rfl
      | cons k2 v2 fs2 =>
        have hsplit : stringifyO (JObj.cons k v (JObj.cons k2 v2 fs2)) ++ '}' :: r =
            '"' :: (escStr k ++ '"' ::
              (':' :: (stringify v ++ ',' ::
                (stringifyO (JObj.cons k2 v2 fs2) ++ '}' :: r)))) := by
          rw [show stringifyO (JObj.cons k v (JObj.cons k2 v2 fs2)) =
            strLit k ++ ':' :: stringify v ++ ',' :: stringifyO (JObj.cons k2 v2 fs2)
            from rfl]
          simp [strLit]
        have hw2 : jweight v2 + jweightO fs2 + 1 ≤ g := by
          have := jweight_pos v
          simp [jweightO] at hw
          omega
        rw [hsplit, parseMembersRest_quote, parseStrBody_esc k _]
        show (match parseValue g (stringify v ++ ',' ::
                (stringifyO (JObj.cons k2 v2 fs2) ++ '}' :: r)) with
              | some (v1, r3) =>
                (match skipWs r3 with
                 | [] => none
                 | c3 :: r4 =>
                   if c3 = ',' then
                     match parseMembersRest g r4 with
                     | some (fs, r5) => some (JObj.cons k v1 fs, r5)
                     | none => none
                   else if c3 = '}' then some (JObj.cons k v1 JObj.nil, r4)
                   else none)
              | none => none) =
          some (JObj.cons k v (JObj.cons k2 v2 fs2), r)
        rw [ihV v _ (by simp [jweightO] at hw; have := jweight_pos v2; omega)
          (numSep_of_sepOk (sepOk_comma _))]
        show (match parseMembersRest g (stringifyO (JObj.cons k2 v2 fs2) ++ '}' :: r) with
              | some (fs, r5) => some (JObj.cons k v fs, r5)
              | none => none) =
          some (JObj.cons k v (JObj.cons k2 v2 fs2), r)
        rw [ihE k2 v2 fs2 r hw2]
    have hD : ∀ fs r, jweightO fs + 1 ≤ g + 1 →
        parseMembers (g + 1) (stringifyO fs ++ '}' :: r) = some (fs, r) := by
      intro fs r hw
      cases fs with
      | nil =>
        rw [show stringifyO JObj.nil ++ '}' :: r = '}' :: r from rfl, parseMembers_rb]
      | cons k v fs' =>
        have hw' : jweight v + jweightO fs' + 1 ≤ g := by
          simp [jweightO] at hw
          omega
        have hu : ∃ u, stringifyO (JObj.cons k v fs') ++ '}' :: r = '"' :: u := by
          cases fs' with
          | nil =>
            exact ⟨escStr k ++ '"' :: (':' :: (stringify v ++ '}' :: r)), by
              rw [show stringifyO (JObj.cons k v .nil) = strLit k ++ ':' :: stringify v
                from rfl]
              simp [strLit]⟩
          | cons k2 v2 fs2 =>
            exact ⟨escStr k ++ '"' :: (':' :: (stringify v ++ ',' ::
                (stringifyO (JObj.cons k2 v2 fs2) ++ '}' :: r))), by
              rw [show stringifyO (JObj.cons k v (JObj.cons k2 v2 fs2)) =
                strLit k ++ ':' :: stringify v ++ ',' :: stringifyO (JObj.cons k2 v2 fs2)
                from rfl]
              simp [strLit]⟩
        obtain ⟨u, huv⟩ := hu
        rw [huv, parseMembers_go g '"' u (by decide) (by decide), ← huv]
        exact ihE k v fs' r hw'
    exact ⟨hV, hB, hC, hD, hE⟩

/-- Three units of fuel per printed character suffice, jointly over the three
syntactic classes, by induction on a weight bound. -/
theorem jweight_le_bound :
    ∀ n : Nat,
      (∀ v : Json, jweight v ≤ n → jweight v ≤ 3 * (stringify v).length)
      ∧ (∀ xs : JArr, jweightA xs ≤ n → jweightA xs ≤ 3 * (stringifyA xs).length + 1)
      ∧ (∀ fs : JObj, jweightO fs ≤ n → jweightO fs ≤ 3 * (stringifyO fs).length + 1) := by
  intro n
  induction n with
  | zero =>
    refine ⟨?_, ?_, ?_⟩
    · intro v hv
      have := jweight_pos v
      omega
    · intro xs hxs
      cases xs with
      | nil => simp [jweightA]
      | cons x xs' =>
        exfalso
        rw [jweightA] at hxs
        omega
    · intro fs hfs
      cases fs with
      | nil => simp [jweightO]
      | cons k v fs' =>
        exfalso
        rw [jweightO] at hfs
        omega
  | succ k ih =>
    obtain ⟨ihV, ihA, ihO⟩ := ih
    refine ⟨?_, ?_, ?_⟩
    · intro v hv
      cases v with
      | null => simp [jweight, stringify]
      | bool b => cases b <;> simp [jweight, stringify]
      | num m e =>
        have h1 : 1 ≤ (numLit m e).length := by
          have hne : numLit m e ≠ [] := by
            rw [numLit]
            intro h
            rcases List.append_eq_nil.mp h with ⟨-, h2⟩
            exact numLitNat_ne_nil m.natAbs e h2
          cases h : numLit m e with
          | nil => exact absurd h hne
          | cons a bb => simp
        simp only [jweight, stringify]
        omega
      | str s =>
        have h1 : 1 ≤ (strLit s).length := by simp [strLit]
        simp only [jweight, stringify]
        omega
      | arr xs =>
        have hw : jweight (Json.arr xs) = 2 + jweightA xs := rfl
        have h1 := ihA xs (by omega)
        simp only [jweight, stringify, List.length_cons, List.length_append,
          List.length_singleton]
        omega
      | obj fs =>
        have hw : jweight (Json.obj fs) = 2 + jweightO fs := rfl
        have h1 := ihO fs (by omega)
        simp only [jweight, stringify, List.length_cons, List.length_append,
          List.length_singleton]
        omega
    · intro xs hxs
      cases xs with
      | nil => simp [jweightA]
      | cons x xs' =>
        rw [jweightA] at hxs
        have hpx := jweight_pos x
        have hvx := ihV x (by omega)
        cases xs' with
        | nil =>
          rw [jweightA, jweightA, stringifyA]
          omega
        | cons y ys =>
          have hay := ihA (JArr.cons y ys) (by rw [jweightA] at hxs ⊢; have := jweight_pos y; omega)
          rw [jweightA, stringifyA]
          simp only [List.length_append, List.length_cons]
          omega
    · intro fs hfs
      cases fs with
      | nil => simp [jweightO]
      | cons kk v fs' =>
        rw [jweightO] at hfs
        have hpv := jweight_pos v
        have hvv := ihV v (by omega)
        cases fs' with
        | nil =>
          rw [jweightO, jweightO, stringifyO]
          simp only [List.length_append, List.length_cons]
          omega
        | cons k2 v2 fs2 =>
          have hof := ihO (JObj.cons k2 v2 fs2)
            (by rw [jweightO] at hfs ⊢; have := jweight_pos v2; omega)
          rw [jweightO, stringifyO]
          simp only [List.length_append, List.length_cons]
          omega

/-- Fuel of three characters per printed character suffices for any value. -/
theorem jweight_le (v : Json) : jweight v ≤ 3 * (stringify v).length :=
  (jweight_le_bound (jweight v)).1 v (le_refl _)

/-- Whatever `JSON.stringify` prints, `JSON.parse` reads back — with any
whitespace-only, number-safe suffix tolerated. -/
theorem parseWhole_stringify_sep (v : Json) (r : JStr) (hsep : numSep v r)
    (hws : skipWs r = []) : parseWhole (stringify v ++ r) = some v := by
  have hfuel : jweight v ≤ 3 * (stringify v ++ r).length + 1 := by
    have h1 := jweight_le v
    simp only [List.length_append]
    omega
  have hc := (parse_complete_all (3 * (stringify v ++ r).length + 1)).1 v r hfuel hsep
  rw [parseWhole, hc]
  simp [hws]

/-- The exact round trip: `parse (stringify v) = v`. -/
theorem parseWhole_stringify (v : Json) : parseWhole (stringify v) = some v := by
  have := parseWhole_stringify_sep v [] (numSep_of_sepOk rfl) rfl
  simpa using this

/-! ## Lemmas: `trim` and character classes -/

theorem isTrimWs_cases {c : Char} (h : isTrimWs c = true) :
    c = ' ' ∨ c = '\t' ∨ c = '\n' ∨ c = '\r' ∨ c = '\x0b' ∨ c = '\x0c' := by
  simp only [isTrimWs, Bool.or_eq_true, decide_eq_true_eq] at h
  tauto

theorem isWs_isTrimWs {c : Char} (h : isWs c = true) : isTrimWs c = true := by
  rcases isWs_cases h with rfl | rfl | rfl | rfl <;> decide

theorem isWs_false_of_trim {c : Char} (h : isTrimWs c = false) : isWs c = false := by
  by_cases hw : isWs c = true
  · rw [isWs_isTrimWs hw] at h; cases h
  · simpa using hw

/-- What is true of every lowercase ASCII letter: not whitespace, not a digit,
self-lowercase, and distinct from every delimiter the extractor watches for. -/
theorem lc_spec {c : Char} (h1 : 'a' ≤ c) (h2 : c ≤ 'z') :
    isTrimWs c = false ∧ isDigit c = false ∧ lowerChar c = c ∧
      c ≠ '{' ∧ c ≠ '[' ∧ c ≠ '"' ∧ c ≠ '-' ∧ c ≠ '`' ∧ c ≠ '$' ∧ c ≠ '}' := by
  refine ⟨?_, ?_, ?_, ?_, ?_, ?_, ?_, ?_, ?_, ?_⟩
  · by_cases hw : isTrimWs c = true
    · rcases isTrimWs_cases hw with rfl | rfl | rfl | rfl | rfl | rfl <;>
        exact absurd h1 (by decide)
    · simpa using hw
  · by_cases hd : isDigit c = true
    · simp only [isDigit, Bool.and_eq_true, decide_eq_true_eq] at hd
      exact absurd (le_trans h1 hd.2) (by decide)
    · simpa using hd
  · rw [lowerChar, if_neg]
    intro hc
    exact absurd (le_trans h1 hc.2) (by decide)
  · intro h; subst h; exact absurd h2 (by decide)
  · intro h; subst h; exact absurd h1 (by decide)
  · intro h; subst h; exact absurd h1 (by decide)
  · intro h; subst h; exact absurd h1 (by decide)
  · intro h; subst h; exact absurd h1 (by decide)
  · intro h; subst h; exact absurd h1 (by decide)
  · intro h; subst h; exact absurd h2 (by decide)

/-- A prose character is never a brace, bracket, quote, minus, backtick or
dollar, and lowercasing fixes it. -/
theorem proseChar_spec {c : Char} (h : proseChar c = true) :
    isDigit c = false ∧ lowerChar c = c ∧
      c ≠ '{' ∧ c ≠ '[' ∧ c ≠ '"' ∧ c ≠ '-' ∧ c ≠ '`' ∧ c ≠ '$' ∧ c ≠ '}' := by
  simp only [proseChar, Bool.or_eq_true, Bool.and_eq_true, decide_eq_true_eq] at h
  rcases h with (⟨h1, h2⟩ | rfl) | rfl
  · obtain ⟨-, hd, hl, h3, h4, h5, h6, h7, h8, h9⟩ := lc_spec h1 h2
    exact ⟨hd, hl, h3, h4, h5, h6, h7, h8, h9⟩
  · decide
  · decide

/-- A non-whitespace prose character is a lowercase letter or a period. -/
theorem proseChar_not_ws {c : Char} (h : proseChar c = true) (hw : isTrimWs c = false) :
    ('a' ≤ c ∧ c ≤ 'z') ∨ c = '.' := by
  simp only [proseChar, Bool.or_eq_true, Bool.and_eq_true, decide_eq_true_eq] at h
  rcases h with (⟨h1, h2⟩ | rfl) | rfl
  · exact Or.inl ⟨h1, h2⟩
  · simp [isTrimWs] at hw
  · exact Or.inr rfl

theorem trimLeft_head_not_ws :
    ∀ (s : JStr) (c : Char), (trimLeft s).head? = some c → isTrimWs c = false := by
  intro s
  induction s with
  | nil => intro c h; cases h
  | cons a t ih =>
    intro c h
    rw [trimLeft, List.dropWhile_cons] at h
    by_cases ha : isTrimWs a = true
    · rw [if_pos ha] at h
      exact ih c h
    · rw [if_neg ha] at h
      cases h
      simpa using ha

theorem trimRight_last_not_ws (s : JStr) (c : Char) (h : (trimRight s).getLast? = some c) :
    isTrimWs c = false := by
  rw [trimRight, List.getLast?_reverse] at h
  exact trimLeft_head_not_ws s.reverse c h

/-- The `trimRight` is a prefix of its argument. -/
theorem trimRight_self_append (s : JStr) : ∃ t, s = trimRight s ++ t := by
  refine ⟨(s.reverse.takeWhile isTrimWs).reverse, ?_⟩
  rw [trimRight, trimLeft]
  conv_lhs => rw [← s.reverse_reverse, ← List.takeWhile_append_dropWhile isTrimWs s.reverse]
  rw [List.reverse_append]

theorem trim_last_not_ws (s : JStr) (c : Char) (h : (trim s).getLast? = some c) :
    isTrimWs c = false :=
  trimRight_last_not_ws (trimLeft s) c h

theorem trim_head_not_ws (s : JStr) (c : Char) (h : (trim s).head? = some c) :
    isTrimWs c = false := by
  obtain ⟨t, ht⟩ := trimRight_self_append (trimLeft s)
  rw [trim] at h
  apply trimLeft_head_not_ws s c
  rw [ht]
  cases hh : trimRight (trimLeft s) with
  | nil => rw [hh] at h; cases h
  | cons d u =>
    rw [hh] at h
    cases h
    simp [hh]

/-- A string already clean at both ends is its own trim. -/
theorem trim_eq_self {s : JStr} (hh : ∀ c, s.head? = some c → isTrimWs c = false)
    (hl : ∀ c, s.getLast? = some c → isTrimWs c = false) : trim s = s := by
  have h1 : trimLeft s = s := dropWhile_head_false hh
  have h2 : trimLeft s.reverse = s.reverse := by
    apply dropWhile_head_false
    intro c hc
    rw [List.head?_reverse] at hc
    exact hl c hc
  rw [trim, h1, trimRight, h2, List.reverse_reverse]

/-- Characters of the trimmed string come from the original. -/
theorem mem_trim {c : Char} {s : JStr} (h : c ∈ trim s) : c ∈ s := by
  rw [trim, trimRight, trimLeft, trimLeft] at h
  rw [List.mem_reverse] at h
  have h2 := (@List.dropWhile_sublist _ ((s.dropWhile isTrimWs).reverse) isTrimWs).mem h
  rw [List.mem_reverse] at h2
  exact (List.dropWhile_sublist isTrimWs).mem h2

/-- The `skipWs` returns the empty string only when everything was whitespace. -/
theorem skipWs_eq_nil {s : JStr} (h : skipWs s = []) : ∀ c ∈ s, isWs c = true := by
  rw [skipWs, List.dropWhile_eq_nil_iff] at h
  exact h

/-- A string containing a non-whitespace character does not skip to empty. -/
theorem skipWs_ne_nil_of_mem {s : JStr} {d : Char} (hd : d ∈ s) (hdw : isWs d = false) :
    skipWs s ≠ [] := by
  intro h
  rw [skipWs_eq_nil h d hd] at hdw
  cases hdw

/-! ## Lemmas: failure of `JSON.parse` on prose -/

/-- The dispatch falls off the end for any head character that opens no JSON
production. -/
theorem parseValue_other (fuel : Nat) (c : Char) (rest : JStr)
    (hws : isWs c = false) (h1 : c ≠ '{') (h2 : c ≠ '[') (h3 : c ≠ '"')
    (h4 : c ≠ 't') (h5 : c ≠ 'f') (h6 : c ≠ 'n') (h7 : c ≠ '-')
    (h8 : isDigit c = false) :
    parseValue (fuel + 1) (c :: rest) = none := by
  rw [parseValue.eq_def]
  simp only [skipWs_cons rest hws, h1, h2, h3, h4, h5, h6, h7, h8, if_false, ite_false,
    Bool.or_eq_true, decide_eq_true_eq, false_or, ite_eq_right_iff, reduceCtorEq]

/-- After a keyword is consumed out of trimmed prose, the nonempty remainder
still ends in the text's visible last character, so whitespace skipping cannot
empty it. -/
theorem keyword_rest_not_done (c : Char) (t' kw rest2 : JStr)
    (hsplit : kw ++ rest2 = t')
    (hlast : ∀ d, (c :: t').getLast? = some d → isTrimWs d = false)
    (hr2 : rest2 ≠ []) : skipWs rest2 ≠ [] := by
  intro hnil
  have hl2 : (c :: t').getLast? = rest2.getLast? := by
    have hform : c :: t' = (c :: kw) ++ rest2 := by rw [← hsplit]; rfl
    rw [hform]
    exact List.getLast?_append_of_ne_nil (c :: kw) hr2
  obtain ⟨dl, hdl⟩ := Option.isSome_iff_exists.mp (List.getLast?_isSome.mpr hr2)
  have h1 : isTrimWs dl = false := hlast dl (by rw [hl2]; exact hdl)
  have h2 : isWs dl = true := skipWs_eq_nil hnil dl (List.mem_of_getLast?_eq_some hdl)
  rw [isWs_isTrimWs h2] at h1
  cases h1

/-- When a keyword is a prefix of prose that later contains `'{'`, and the
keyword itself has no brace, the remainder after the keyword still contains
the brace. -/
theorem keyword_prefix_brace (kw a b rest2 : JStr) (n : Nat) (hn : n = kw.length)
    (hsplit : kw ++ rest2 = a ++ '{' :: b)
    (hbrace : '{' ∉ kw) :
    skipWs ((a ++ '{' :: b).drop n) ≠ [] := by
  subst hn
  by_cases hle : kw.length ≤ a.length
  · rw [List.drop_append_of_le_length hle]
    exact skipWs_ne_nil_of_mem
      (List.mem_append_right _ (List.mem_cons_self '{' b)) (by decide)
  · exfalso
    apply hbrace
    have hidx : (a ++ '{' :: b)[a.length]? = some '{' := by
      rw [List.getElem?_append_right (le_refl a.length), Nat.sub_self]
      simp
    rw [← hsplit, List.getElem?_append, if_pos (by omega)] at hidx
    exact List.getElem?_mem hidx

/-- The `JSON.parse` rejects any trimmed text over the prose alphabet other than
the three literal keywords. -/
theorem parseWhole_prose_none (t : JStr) (hall : ∀ c ∈ t, proseChar c = true)
    (hhead : ∀ c, t.head? = some c → isTrimWs c = false)
    (hlast : ∀ c, t.getLast? = some c → isTrimWs c = false)
    (hkw1 : t ≠ ['t', 'r', 'u', 'e']) (hkw2 : t ≠ ['f', 'a', 'l', 's', 'e'])
    (hkw3 : t ≠ ['n', 'u', 'l', 'l']) :
    parseWhole t = none := by
  cases t with
  | nil => rfl
  | cons c t' =>
    have hcp : proseChar c = true := hall c (List.mem_cons_self c t')
    have hcw : isTrimWs c = false := hhead c rfl
    have hcws : isWs c = false := isWs_false_of_trim hcw
    obtain ⟨hdig, -, hbr, hbk, hq, hmin, -, -, -⟩ := proseChar_spec hcp
    rw [parseWhole]
    by_cases hct : c = 't'
    · subst hct
      rw [parseValue_t]
      by_cases hp : ['r', 'u', 'e'].isPrefixOf t' = true
      · rw [if_pos hp]
        rw [ List.isPrefixOf_iff_prefix] at hp
        obtain ⟨rest2, hsplit⟩ := hp
        have hdrop : t'.drop 3 = rest2 := by
          rw [← hsplit]
          exact List.drop_left ['r', 'u', 'e'] rest2
        cases hr2 : rest2 with
        | nil =>
          exfalso
          apply hkw1
          rw [← hsplit, hr2, List.append_nil]
        | cons d u =>
          rw [hdrop]
          show (if skipWs rest2 = [] then some (Json.bool true) else none) = none
          rw [if_neg (keyword_rest_not_done 't' t' ['r', 'u', 'e'] rest2 hsplit hlast
            (by rw [hr2]; simp))]
      · rw [if_neg hp]
    · by_cases hcf : c = 'f'
      · subst hcf
        rw [parseValue_f]
        by_cases hp : ['a', 'l', 's', 'e'].isPrefixOf t' = true
        · rw [if_pos hp]
          rw [ List.isPrefixOf_iff_prefix] at hp
          obtain ⟨rest2, hsplit⟩ := hp
          have hdrop : t'.drop 4 = rest2 := by
            rw [← hsplit]
            exact List.drop_left ['a', 'l', 's', 'e'] rest2
          cases hr2 : rest2 with
          | nil =>
            exfalso
            apply hkw2
            rw [← hsplit, hr2, List.append_nil]
          | cons d u =>
            rw [hdrop]
            show (if skipWs rest2 = [] then some (Json.bool false) else none) = none
            rw [if_neg (keyword_rest_not_done 'f' t' ['a', 'l', 's', 'e'] rest2 hsplit hlast
              (by rw [hr2]; simp))]
        · rw [if_neg hp]
      · by_cases hcn : c = 'n'
        · subst hcn
          rw [parseValue_n]
          by_cases hp : ['u', 'l', 'l'].isPrefixOf t' = true
          · rw [if_pos hp]
            rw [ List.isPrefixOf_iff_prefix] at hp
            obtain ⟨rest2, hsplit⟩ := hp
            have hdrop : t'.drop 3 = rest2 := by
              rw [← hsplit]
              exact List.drop_left ['u', 'l', 'l'] rest2
            cases hr2 : rest2 with
            | nil =>
              exfalso
              apply hkw3
              rw [← hsplit, hr2, List.append_nil]
            | cons d u =>
              rw [hdrop]
              show (if skipWs rest2 = [] then some Json.null else none) = none
              rw [if_neg (keyword_rest_not_done 'n' t' ['u', 'l', 'l'] rest2 hsplit hlast
                (by rw [hr2]; simp))]
          · rw [if_neg hp]
        · rw [parseValue_other (3 * (c :: t').length) c t' hcws hbr hbk hq hct hcf hcn
            hmin hdig]

/-- The `JSON.parse` rejects a text that begins with a visible prose character and
later contains the page's opening brace. -/
theorem parseWhole_prose_brace (c : Char) (a b : JStr) (hcp : proseChar c = true)
    (hcw : isTrimWs c = false) :
    parseWhole (c :: (a ++ '{' :: b)) = none := by
  have hcws : isWs c = false := isWs_false_of_trim hcw
  obtain ⟨hdig, -, hbr, hbk, hq, hmin, -, -, -⟩ := proseChar_spec hcp
  rw [parseWhole]
  by_cases hct : c = 't'
  · subst hct
    rw [parseValue_t]
    by_cases hp : ['r', 'u', 'e'].isPrefixOf (a ++ '{' :: b) = true
    · rw [if_pos hp]
      rw [ List.isPrefixOf_iff_prefix] at hp
      obtain ⟨rest2, hsplit⟩ := hp
      show (if skipWs ((a ++ '{' :: b).drop 3) = [] then some (Json.bool true) else none) = none
      rw [if_neg (keyword_prefix_brace ['r', 'u', 'e'] a b rest2 3 rfl hsplit (by decide))]
    · rw [if_neg hp]
  · by_cases hcf : c = 'f'
    · subst hcf
      rw [parseValue_f]
      by_cases hp : ['a', 'l', 's', 'e'].isPrefixOf (a ++ '{' :: b) = true
      · rw [if_pos hp]
        rw [ List.isPrefixOf_iff_prefix] at hp
        obtain ⟨rest2, hsplit⟩ := hp
        show (if skipWs ((a ++ '{' :: b).drop 4) = [] then some (Json.bool false) else none) =
          none
        rw [if_neg (keyword_prefix_brace ['a', 'l', 's', 'e'] a b rest2 4 rfl hsplit (by decide))]
      · rw [if_neg hp]
    · by_cases hcn : c = 'n'
      · subst hcn
        rw [parseValue_n]
        by_cases hp : ['u', 'l', 'l'].isPrefixOf (a ++ '{' :: b) = true
        · rw [if_pos hp]
          rw [ List.isPrefixOf_iff_prefix] at hp
          obtain ⟨rest2, hsplit⟩ := hp
          show (if skipWs ((a ++ '{' :: b).drop 3) = [] then some Json.null else none) = none
          rw [if_neg (keyword_prefix_brace ['u', 'l', 'l'] a b rest2 3 rfl hsplit (by decide))]
        · rw [if_neg hp]
      · rw [parseValue_other (3 * (c :: (a ++ '{' :: b)).length) c (a ++ '{' :: b) hcws hbr
          hbk hq hct hcf hcn hmin hdig]

/-! ## Lemmas: failure of strategies 2–4 on backtick-, marker- and brace-free
text -/

/-- No backtick anywhere means no fence match. -/
theorem fenceCapture_none : ∀ {t : JStr}, (∀ c ∈ t, c ≠ '`') → fenceCapture t = none := by
  intro t
  induction t with
  | nil => intro h; rfl
  | cons c rest ih =>
    intro h
    rw [fenceCapture, if_neg]
    · exact ih (fun x hx => h x (List.mem_cons_of_mem c hx))
    · intro hp
      rw [ List.isPrefixOf_iff_prefix] at hp
      obtain ⟨u, hu⟩ := hp
      have hc : c = '`' := by
        have := congrArg List.head? hu
        simp [tick3] at this
        exact this.symm
      exact h c (List.mem_cons_self c rest) hc

/-- A pattern whose lowered head occurs nowhere in the lowered text is never
found. -/
theorem findCi_none (pat : JStr) (p0 : Char) (hp0 : pat.head? = some p0) :
    ∀ {t : JStr}, (∀ c ∈ t, lowerChar c ≠ lowerChar p0) → findCi pat t = none := by
  intro t
  induction t with
  | nil =>
    intro h
    rw [findCi, if_neg]
    intro hnil
    rw [hnil] at hp0
    cases hp0
  | cons c rest ih =>
    intro h
    rw [findCi, if_neg]
    · exact ih (fun x hx => h x (List.mem_cons_of_mem c hx))
    · intro hpre
      rw [ List.isPrefixOf_iff_prefix] at hpre
      obtain ⟨u, hu⟩ := hpre
      cases hpat : pat with
      | nil => rw [hpat] at hp0; cases hp0
      | cons q qs =>
        have hq : q = p0 := by rw [hpat] at hp0; cases hp0; rfl
        have := congrArg List.head? hu
        rw [hpat, hq] at this
        simp only [lowerStr, List.map_cons, List.cons_append, List.head?_cons,
          Option.some.injEq] at this
        exact h c (List.mem_cons_self c rest) this.symm

/-- No (case-insensitive) `'$'` in the text means the marker regex cannot
open, so strategy 3 fails. -/
theorem markerCapture_none {t : JStr} (h : ∀ c ∈ t, lowerChar c ≠ '$') :
    markerCapture t = none := by
  have h' : ∀ c ∈ t, lowerChar c ≠ lowerChar '$' := by
    intro c hc
    rw [show lowerChar '$' = '$' from rfl]
    exact h c hc
  rw [markerCapture, findCi_none markerOpen '$' rfl h']

/-- No opening brace in the text means strategy 4 finds nothing to slice. -/
theorem braceSlice_none {t : JStr} (h : ∀ c ∈ t, c ≠ '{') : braceSlice t = none := by
  have hidx : idxOpenBrace t = none := by
    rw [idxOpenBrace, List.findIdx?_eq_none_iff]
    intro x hx
    simp [h x hx]
  rw [braceSlice, hidx]

/-- Gibberish rejection: Any text over the prose alphabet whose trim is
not a JSON keyword is rejected by all four strategies. -/
theorem extractJSON_prose_none (s : JStr) (hall : ∀ c ∈ s, proseChar c = true)
    (hkw1 : trim s ≠ ['t', 'r', 'u', 'e']) (hkw2 : trim s ≠ ['f', 'a', 'l', 's', 'e'])
    (hkw3 : trim s ≠ ['n', 'u', 'l', 'l']) :
    extractJSON s = none := by
  by_cases hs : s = []
  · rw [hs]; rfl
  rw [extractJSON, if_neg hs]
  have hallt : ∀ c ∈ trim s, proseChar c = true := fun c hc => hall c (mem_trim hc)
  have h1 : parseWhole (trim s) = none :=
    parseWhole_prose_none (trim s) hallt (trim_head_not_ws s) (trim_last_not_ws s)
      hkw1 hkw2 hkw3
  have h2 : fenceCapture (trim s) = none := by
    apply fenceCapture_none
    intro c hc
    exact (proseChar_spec (hallt c hc)).2.2.2.2.2.2.1
  have h3 : markerCapture (trim s) = none := by
    apply markerCapture_none
    intro c hc
    rw [(proseChar_spec (hallt c hc)).2.1]
    exact (proseChar_spec (hallt c hc)).2.2.2.2.2.2.2.1
  have h4 : braceSlice (trim s) = none := by
    apply braceSlice_none
    intro c hc
    exact (proseChar_spec (hallt c hc)).2.2.1
  show (match parseWhole (trim s) with
    | some v => some v
    | none =>
      match tryParse (fenceCapture (trim s)) with
      | some v => some v
      | none =>
        match tryParse (markerCapture (trim s)) with
        | some v => some v
        | none => tryParse (braceSlice (trim s))) = none
  rw [h1, h2, h3, h4]
  rfl

/-! ## The printed value survives `extractJSON` bare -/

theorem isDigit_not_trimws {c : Char} (h : isDigit c = true) : isTrimWs c = false := by
  by_cases hw : isTrimWs c = true
  · rcases isTrimWs_cases hw with rfl | rfl | rfl | rfl | rfl | rfl <;> exact absurd h (by decide)
  · simpa using hw

/-- The unsigned printed number ends in a digit. -/
theorem numLitNat_last_digit (a e : Nat) (c : Char)
    (h : (numLitNat a e).getLast? = some c) : isDigit c = true := by
  by_cases he : e = 0
  · subst he
    rw [numLitNat, if_pos rfl] at h
    exact natDec_digits a c (List.mem_of_getLast?_eq_some h)
  · rw [numLitNat, if_neg he] at h
    have hlen : e + 1 ≤ (padZeros (e + 1) (natDec a)).length := padZeros_length_ge _ _
    have hdr : (padZeros (e + 1) (natDec a)).drop ((padZeros (e + 1) (natDec a)).length - e) ≠
        [] := by
      intro hnil
      have := congrArg List.length hnil
      simp only [List.length_drop, List.length_nil] at this
      omega
    rw [show ((padZeros (e + 1) (natDec a)).take ((padZeros (e + 1) (natDec a)).length - e) ++
        '.' :: (padZeros (e + 1) (natDec a)).drop ((padZeros (e + 1) (natDec a)).length - e)) =
        ((padZeros (e + 1) (natDec a)).take ((padZeros (e + 1) (natDec a)).length - e) ++
        ['.']) ++ (padZeros (e + 1) (natDec a)).drop ((padZeros (e + 1) (natDec a)).length - e)
      by simp] at h
    rw [List.getLast?_append_of_ne_nil _ hdr] at h
    exact padZeros_digits a e c
      ((List.drop_sublist _ _).mem (List.mem_of_getLast?_eq_some h))

/-- The signed printed number ends in a digit. -/
theorem numLit_last_digit (m : Int) (e : Nat) (c : Char)
    (h : (numLit m e).getLast? = some c) : isDigit c = true := by
  rw [numLit, List.getLast?_append_of_ne_nil _ (numLitNat_ne_nil m.natAbs e)] at h
  exact numLitNat_last_digit m.natAbs e c h

/-- The last character of any printed value is visible (not trim whitespace). -/
theorem stringify_last_trim (v : Json) :
    ∀ c, (stringify v).getLast? = some c → isTrimWs c = false := by
  intro c h
  cases v with
  | null => simp [stringify] at h; subst h; decide
  | bool b =>
    cases b <;> simp [stringify] at h <;> (subst h; decide)
  | num m e => exact isDigit_not_trimws (numLit_last_digit m e c h)
  | str s =>
    rw [show stringify (.str s) = ('"' :: escStr s) ++ ['"'] by simp [stringify, strLit]] at h
    rw [List.getLast?_concat] at h
    cases h; decide
  | arr xs =>
    rw [show stringify (.arr xs) = ('[' :: stringifyA xs) ++ [']'] by simp [stringify]] at h
    rw [List.getLast?_concat] at h
    cases h; decide
  | obj fs =>
    rw [show stringify (.obj fs) = ('{' :: stringifyO fs) ++ ['}'] by simp [stringify]] at h
    rw [List.getLast?_concat] at h
    cases h; decide

/-- The head character of any printed value is visible. -/
theorem stringify_head_trim (v : Json) :
    ∀ c, (stringify v).head? = some c → isTrimWs c = false := by
  intro c h
  cases v with
  | null => simp [stringify] at h; subst h; decide
  | bool b => cases b <;> simp [stringify] at h <;> (subst h; decide)
  | num m e =>
    by_cases hm : m < 0
    · rw [show stringify (.num m e) = numLit m e from rfl, numLit, if_pos hm] at h
      cases h; decide
    · rw [show stringify (.num m e) = numLit m e from rfl, numLit, if_neg hm,
        List.nil_append] at h
      obtain ⟨d, ds, hcons⟩ := List.exists_cons_of_ne_nil (numLitNat_ne_nil m.natAbs e)
      rw [hcons] at h
      cases h
      exact isDigit_not_trimws (numLitNat_head_digit m.natAbs e _ ds hcons)
  | str s => simp [stringify, strLit] at h; subst h; decide
  | arr xs => simp [stringify] at h; subst h; decide
  | obj fs => simp [stringify] at h; subst h; decide

theorem stringify_ne_nil (v : Json) : stringify v ≠ [] := by
  obtain ⟨c, t, hct, -⟩ := stringify_head_spec v
  rw [hct]
  simp

/-- Bare extraction: the printer's exact output is accepted at strategy 1. -/
theorem extractJSON_stringify (v : Json) : extractJSON (stringify v) = some v := by
  rw [extractJSON, if_neg (stringify_ne_nil v)]
  have htrim : trim (stringify v) = stringify v :=
    trim_eq_self (stringify_head_trim v) (stringify_last_trim v)
  show (match parseWhole (trim (stringify v)) with
    | some w => some w
    | none =>
      match tryParse (fenceCapture (trim (stringify v))) with
      | some w => some w
      | none =>
        match tryParse (markerCapture (trim (stringify v))) with
        | some w => some w
        | none => tryParse (braceSlice (trim (stringify v)))) = some v
  rw [htrim, parseWhole_stringify]

/-! ## Fenced extraction -/

/-- The lazy capture stops exactly at the closing fence when the captured
content itself holds no backtick. -/
theorem captureTo_clean :
    ∀ {a : JStr} (b : JStr), (∀ c ∈ a, c ≠ '`') → captureTo (a ++ (tick3 ++ b)) = some a := by
  intro a
  induction a with
  | nil =>
    intro b h
    show captureTo ('`' :: '`' :: '`' :: b) = some []
    rw [captureTo, if_pos]
    exact isPrefixOf_append_self tick3 b
  | cons c a' ih =>
    intro b h
    show captureTo (c :: (a' ++ (tick3 ++ b))) = some (c :: a')
    rw [captureTo, if_neg]
    · rw [ih b (fun x hx => h x (List.mem_cons_of_mem c hx))]
      rfl
    · intro hp
      rw [ List.isPrefixOf_iff_prefix] at hp
      obtain ⟨u, hu⟩ := hp
      have hc : c = '`' := by
        have := congrArg List.head? hu
        simp [tick3] at this
        exact this.symm
      exact h c (List.mem_cons_self c a') hc

/-- Fenced extraction: a ```json fence around the printed value is
recovered by strategy 2 whenever the value's serialization holds no backtick
(the fence characters themselves defeat strategy 1). -/
theorem extractJSON_fenced (v : Json) (hbt : ∀ c ∈ stringify v, c ≠ '`') :
    extractJSON (['`', '`', '`', 'j', 's', 'o', 'n', '\n'] ++
      (stringify v ++ ['\n', '`', '`', '`'])) = some v := by
  have hne : ['`', '`', '`', 'j', 's', 'o', 'n', '\n'] ++
      (stringify v ++ ['\n', '`', '`', '`']) ≠ [] := by simp
  rw [extractJSON, if_neg hne]
  have htrim : trim (['`', '`', '`', 'j', 's', 'o', 'n', '\n'] ++
      (stringify v ++ ['\n', '`', '`', '`'])) =
      ['`', '`', '`', 'j', 's', 'o', 'n', '\n'] ++ (stringify v ++ ['\n', '`', '`', '`']) := by
    apply trim_eq_self
    · intro c h
      cases h
      decide
    · intro c h
      rw [show ['`', '`', '`', 'j', 's', 'o', 'n', '\n'] ++
          (stringify v ++ ['\n', '`', '`', '`']) =
          (['`', '`', '`', 'j', 's', 'o', 'n', '\n'] ++ (stringify v ++ ['\n', '`', '`'])) ++
          ['`'] by simp] at h
      rw [List.getLast?_concat] at h
      cases h
      decide
  have h1 : parseWhole (['`', '`', '`', 'j', 's', 'o', 'n', '\n'] ++
      (stringify v ++ ['\n', '`', '`', '`'])) = none := by
    show parseWhole ('`' :: (['`', '`', 'j', 's', 'o', 'n', '\n'] ++
      (stringify v ++ ['\n', '`', '`', '`']))) = none
    rw [parseWhole, parseValue_other _ '`' _ (by decide) (by decide) (by decide) (by decide)
      (by decide) (by decide) (by decide) (by decide) (by decide)]
  have hdw : (stringify v ++ ['\n', '`', '`', '`']).dropWhile isTrimWs =
      stringify v ++ ['\n', '`', '`', '`'] := by
    apply dropWhile_head_false
    intro c h
    obtain ⟨d, t, hdt, -⟩ := stringify_head_spec v
    rw [hdt] at h
    cases h
    apply stringify_head_trim v
    rw [hdt]
    rfl
  have h2 : fenceCapture (['`', '`', '`', 'j', 's', 'o', 'n', '\n'] ++
      (stringify v ++ ['\n', '`', '`', '`'])) = some (stringify v ++ ['\n']) := by
    show fenceCapture ('`' :: ('`' :: '`' :: 'j' :: 's' :: 'o' :: 'n' :: '\n' ::
      (stringify v ++ ['\n', '`', '`', '`']))) = some (stringify v ++ ['\n'])
    rw [fenceCapture, if_pos]
    · show (match captureTo ((('j' :: 's' :: 'o' :: 'n' :: '\n' ::
          (stringify v ++ ['\n', '`', '`', '`'])).drop 4).dropWhile isTrimWs) with
        | some cap => some cap
        | none => fenceCapture ('`' :: '`' :: 'j' :: 's' :: 'o' :: 'n' :: '\n' ::
            (stringify v ++ ['\n', '`', '`', '`']))) = some (stringify v ++ ['\n'])
      rw [show ('j' :: 's' :: 'o' :: 'n' :: '\n' ::
          (stringify v ++ ['\n', '`', '`', '`'])).drop 4 = '\n' ::
          (stringify v ++ ['\n', '`', '`', '`']) from rfl]
      rw [show ('\n' :: (stringify v ++ ['\n', '`', '`', '`'])).dropWhile isTrimWs =
          (stringify v ++ ['\n', '`', '`', '`']).dropWhile isTrimWs by
        rw [List.dropWhile_cons, if_pos (by decide)]]
      rw [hdw]
      rw [show stringify v ++ ['\n', '`', '`', '`'] =
          (stringify v ++ ['\n']) ++ (tick3 ++ []) by simp [tick3]]
      rw [captureTo_clean [] ?hclean]
      case hclean =>
        intro c hc
        rcases List.mem_append.mp hc with h | h
        · exact hbt c h
        · simp at h
          subst h
          decide
    · exact isPrefixOf_append_self tick3 _
  have h3 : parseWhole (stringify v ++ ['\n']) = some v := by
    apply parseWhole_stringify_sep v ['\n'] (numSep_of_sepOk rfl) rfl
  show (match parseWhole (trim (['`', '`', '`', 'j', 's', 'o', 'n', '\n'] ++
      (stringify v ++ ['\n', '`', '`', '`']))) with
    | some w => some w
    | none =>
      match tryParse (fenceCapture (trim (['`', '`', '`', 'j', 's', 'o', 'n', '\n'] ++
          (stringify v ++ ['\n', '`', '`', '`'])))) with
      | some w => some w
      | none =>
        match tryParse (markerCapture (trim (['`', '`', '`', 'j', 's', 'o', 'n', '\n'] ++
            (stringify v ++ ['\n', '`', '`', '`'])))) with
        | some w => some w
        | none => tryParse (braceSlice (trim (['`', '`', '`', 'j', 's', 'o', 'n', '\n'] ++
            (stringify v ++ ['\n', '`', '`', '`']))))) = some v
  rw [htrim, h1, h2]
  rw [show tryParse (some (stringify v ++ ['\n'])) = some v from h3]

/-! ## Prose-wrapped extraction: trim decomposition and the brace slice -/

theorem mem_trimLeft {c : Char} {s : JStr} (h : c ∈ trimLeft s) : c ∈ s :=
  (List.dropWhile_sublist isTrimWs).mem h

theorem mem_trimRight {c : Char} {s : JStr} (h : c ∈ trimRight s) : c ∈ s := by
  rw [trimRight, List.mem_reverse] at h
  have := mem_trimLeft h
  rw [List.mem_reverse] at this
  exact this

/-- Trimming the right end of `X ++ post` leaves `X` untouched when `X` ends
in a visible character. -/
theorem trimRight_append (X post : JStr) (hX : X ≠ [])
    (hlast : ∀ c, X.getLast? = some c → isTrimWs c = false) :
    trimRight (X ++ post) = X ++ trimRight post := by
  rw [trimRight, trimLeft, List.reverse_append, List.dropWhile_append]
  have hrx : X.reverse.dropWhile isTrimWs = X.reverse := by
    apply dropWhile_head_false
    intro c hc
    rw [List.head?_reverse] at hc
    exact hlast c hc
  by_cases hemp : (post.reverse.dropWhile isTrimWs).isEmpty = true
  · rw [if_pos hemp, hrx, List.reverse_reverse]
    have hpost : trimRight post = [] := by
      rw [trimRight, trimLeft, List.isEmpty_iff.mp hemp]
      rfl
    rw [hpost, List.append_nil]
  · rw [if_neg hemp, List.reverse_append, List.reverse_reverse, trimRight, trimLeft]

/-- The `findIdx?` over an append whose left part contains no hit. -/
theorem findIdx?_append_none {p : Char → Bool} {a : JStr} (b : JStr)
    (h : ∀ c ∈ a, p c = false) :
    (a ++ b).findIdx? p = (b.findIdx? p).map (fun i => i + a.length) := by
  rw [List.findIdx?_append, List.findIdx?_eq_none_iff.mpr h, Option.none_or]

/-- When nothing before the object has `'{'` and nothing after it has `'}'`,
strategy 4 slices out exactly the serialized object. -/
theorem braceSlice_exact (P Q M : JStr)
    (hP : ∀ c ∈ P, c ≠ '{') (hQ : ∀ c ∈ Q, c ≠ '}') :
    braceSlice (P ++ (('{' :: (M ++ ['}'])) ++ Q)) = some ('{' :: (M ++ ['}'])) := by
  have hopen : idxOpenBrace (P ++ (('{' :: (M ++ ['}'])) ++ Q)) = some P.length := by
    rw [idxOpenBrace, findIdx?_append_none _ (fun c hc => by simp [hP c hc]),
      List.cons_append, List.findIdx?_cons, if_pos (by simp)]
    simp
  have hclose : idxCloseBrace (P ++ (('{' :: (M ++ ['}'])) ++ Q)) =
      some (P.length + M.length + 1) := by
    rw [idxCloseBrace]
    have hrev : (P ++ (('{' :: (M ++ ['}'])) ++ Q)).reverse =
        Q.reverse ++ (('}' :: (('{' :: M).reverse ++ P.reverse))) := by
      simp
    rw [hrev, findIdx?_append_none _ (fun c hc => by
      rw [List.mem_reverse] at hc
      simp [hQ c hc]), List.findIdx?_cons, if_pos (by simp)]
    simp only [Option.map_some']
    congr 1
    simp only [List.length_append, List.length_cons, List.length_reverse,
      List.length_nil]
    omega
  rw [braceSlice, hopen, hclose]
  show (if P.length < P.length + M.length + 1 then
      some (((P ++ (('{' :: (M ++ ['}'])) ++ Q)).drop P.length).take
        (P.length + M.length + 1 + 1 - P.length))
    else none) = some ('{' :: (M ++ ['}']))
  rw [if_pos (by omega)]
  congr 1
  rw [List.drop_left,
    show P.length + M.length + 1 + 1 - P.length = ('{' :: (M ++ ['}'])).length by
      simp; omega]
  exact List.take_left _ _

/-- One-step unfolding of `extractJSON` on nonempty input. -/
theorem extractJSON_eq (text : JStr) (hne : text ≠ []) :
    extractJSON text =
      match parseWhole (trim text) with
      | some v => some v
      | none =>
        match tryParse (fenceCapture (trim text)) with
        | some v => some v
        | none =>
          match tryParse (markerCapture (trim text)) with
          | some v => some v
          | none => tryParse (braceSlice (trim text)) := by
  rw [extractJSON, if_neg hne]

/-- A visible last character survives whitespace skipping. -/
theorem skipWs_trimRight_ne_nil (post : JStr) (hne : trimRight post ≠ []) :
    skipWs (trimRight post) ≠ [] := by
  obtain ⟨dl, hdl⟩ := Option.isSome_iff_exists.mp (List.getLast?_isSome.mpr hne)
  exact skipWs_ne_nil_of_mem (List.mem_of_getLast?_eq_some hdl)
    (isWs_false_of_trim (trimRight_last_not_ws post dl hdl))

/-- Prose-wrapped extraction: An object value surrounded by prose (no
backticks, braces or dollar signs outside it; none of `` ` ``/`$` inside its
serialization) is recovered: by strategy 1 when the prose trims away
entirely, otherwise by the first-`{`-to-last-`}` slice of strategy 4. -/
theorem extractJSON_prose_wrapped (fs : JObj) (pre post : JStr)
    (hpre : ∀ c ∈ pre, proseChar c = true)
    (hpost : ∀ c ∈ post, proseChar c = true)
    (hsv1 : ∀ c ∈ stringify (Json.obj fs), c ≠ '`')
    (hsv2 : ∀ c ∈ stringify (Json.obj fs), lowerChar c ≠ '$') :
    extractJSON (pre ++ (stringify (Json.obj fs) ++ post)) = some (Json.obj fs) := by
  have hsvform : stringify (Json.obj fs) = '{' :: (stringifyO fs ++ ['}']) := rfl
  have hne : pre ++ (stringify (Json.obj fs) ++ post) ≠ [] := by
    intro h
    rcases List.append_eq_nil.mp h with ⟨-, h2⟩
    rcases List.append_eq_nil.mp h2 with ⟨h3, -⟩
    exact stringify_ne_nil _ h3
  have hTL : trimLeft (pre ++ (stringify (Json.obj fs) ++ post)) =
      trimLeft pre ++ (stringify (Json.obj fs) ++ post) := by
    rw [trimLeft, List.dropWhile_append]
    by_cases hemp : (pre.dropWhile isTrimWs).isEmpty = true
    · rw [if_pos hemp, show trimLeft pre = pre.dropWhile isTrimWs from rfl,
        List.isEmpty_iff.mp hemp, List.nil_append]
      apply dropWhile_head_false
      intro c hc
      obtain ⟨d, t, hdt, -⟩ := stringify_head_spec (Json.obj fs)
      rw [hdt, List.cons_append, List.head?_cons] at hc
      cases hc
      apply stringify_head_trim (Json.obj fs)
      rw [hdt]
      rfl
    · rw [if_neg hemp]
      rfl
  have hlastsv : ∀ c, (trimLeft pre ++ stringify (Json.obj fs)).getLast? = some c →
      isTrimWs c = false := by
    intro c hc
    rw [List.getLast?_append_of_ne_nil _ (stringify_ne_nil _)] at hc
    exact stringify_last_trim _ c hc
  have hT : trim (pre ++ (stringify (Json.obj fs) ++ post)) =
      (trimLeft pre ++ stringify (Json.obj fs)) ++ trimRight post := by
    rw [trim, hTL, ← List.append_assoc]
    apply trimRight_append
    · intro h
      rcases List.append_eq_nil.mp h with ⟨-, h2⟩
      exact stringify_ne_nil _ h2
    · exact hlastsv
  have hmem : ∀ c ∈ (trimLeft pre ++ stringify (Json.obj fs)) ++ trimRight post,
      proseChar c = true ∨ c ∈ stringify (Json.obj fs) := by
    intro c hc
    rcases List.mem_append.mp hc with hc1 | hc2
    · rcases List.mem_append.mp hc1 with hc3 | hc4
      · exact Or.inl (hpre c (mem_trimLeft hc3))
      · exact Or.inr hc4
    · exact Or.inl (hpost c (mem_trimRight hc2))
  have hfence : fenceCapture ((trimLeft pre ++ stringify (Json.obj fs)) ++ trimRight post) =
      none := by
    apply fenceCapture_none
    intro c hc
    rcases hmem c hc with h | h
    · exact (proseChar_spec h).2.2.2.2.2.2.1
    · exact hsv1 c h
  have hmarker : markerCapture ((trimLeft pre ++ stringify (Json.obj fs)) ++ trimRight post) =
      none := by
    apply markerCapture_none
    intro c hc
    rcases hmem c hc with h | h
    · rw [(proseChar_spec h).2.1]
      exact (proseChar_spec h).2.2.2.2.2.2.2.1
    · exact hsv2 c h
  have hbrace : braceSlice ((trimLeft pre ++ stringify (Json.obj fs)) ++ trimRight post) =
      some (stringify (Json.obj fs)) := by
    rw [hsvform, List.append_assoc]
    apply braceSlice_exact
    · intro c hc
      exact (proseChar_spec (hpre c (mem_trimLeft hc))).2.2.1
    · intro c hc
      exact (proseChar_spec (hpost c (mem_trimRight hc))).2.2.2.2.2.2.2.2
  rw [extractJSON_eq _ hne, hT]
  cases hpre' : trimLeft pre with
  | cons c pre'' =>
    rw [hpre'] at hfence hmarker hbrace
    have h1 : parseWhole (((c :: pre'') ++ stringify (Json.obj fs)) ++ trimRight post) =
        none := by
      rw [show ((c :: pre'') ++ stringify (Json.obj fs)) ++ trimRight post =
          c :: (pre'' ++ ('{' :: ((stringifyO fs ++ ['}']) ++ trimRight post))) by
        rw [hsvform]; simp]
      apply parseWhole_prose_brace
      · apply hpre
        apply mem_trimLeft
        rw [hpre']
        exact List.mem_cons_self c pre''
      · apply trimLeft_head_not_ws pre
        rw [hpre']
        rfl
    rw [h1, hfence, hmarker, hbrace]
    rw [show tryParse (some (stringify (Json.obj fs))) = some (Json.obj fs) from
      parseWhole_stringify _]
    rfl
  | nil =>
    rw [hpre'] at hfence hmarker hbrace
    cases hpost' : trimRight post with
    | nil =>
      rw [List.nil_append, List.append_nil, parseWhole_stringify]
    | cons d ds =>
      rw [hpost'] at hfence hmarker hbrace
      have h1 : parseWhole (([] ++ stringify (Json.obj fs)) ++ (d :: ds)) = none := by
        rw [show ([] ++ stringify (Json.obj fs)) ++ (d :: ds) =
            stringify (Json.obj fs) ++ (d :: ds) by simp]
        have hfuel : jweight (Json.obj fs) ≤
            3 * (stringify (Json.obj fs) ++ (d :: ds)).length + 1 := by
          have := jweight_le (Json.obj fs)
          simp only [List.length_append]
          omega
        rw [parseWhole, (parse_complete_all _).1 (Json.obj fs) (d :: ds) hfuel trivial]
        show (if skipWs (d :: ds) = [] then some (Json.obj fs) else none) = none
        rw [if_neg]
        rw [← hpost']
        apply skipWs_trimRight_ne_nil
        rw [hpost']
        simp
      rw [h1, hfence, hmarker, hbrace]
      rw [show tryParse (some (stringify (Json.obj fs))) = some (Json.obj fs) from
        parseWhole_stringify _]
      rfl

/-! ## Lemmas: the effects applier -/

theorem clamp01_le_one (x : ℚ) : clamp01 x ≤ 1 := by
  rw [clamp01, jsMaxQ, jsMinQ]
  split_ifs with h1 h2 h3 <;> linarith

theorem clamp01_nonneg (x : ℚ) : 0 ≤ clamp01 x := by
  rw [clamp01, jsMaxQ, jsMinQ]
  split_ifs with h1 h2 h3 <;> linarith

/-- A scaled decimal with no fractional digits is its mantissa. -/
theorem decVal_e0 (m : Int) : decVal m 0 = (m : ℚ) := by
  simp [decVal]

theorem applyEffects_truthEff (p : PlayerSt) :
    applyEffects truthEff p = { p with truthDensity := clamp01 (p.truthDensity + decVal 5 0) } :=
  rfl

theorem applyEffects_hpEff (p : PlayerSt) :
    applyEffects hpEff p =
      { p with hp := jsMaxI 0 (jsMinI 100 (p.hp + ⌊decVal (-1000) 0⌋)) } := rfl

theorem applyEffects_setEff (p : PlayerSt) :
    applyEffects setEff p =
      { p with truthDensity := updClamped p.truthDensity (.str ("=0.3".data)) } := rfl

theorem applyEffects_insEff (p : PlayerSt) :
    applyEffects insEff p = { p with insight := p.insight + ⌊decVal (-5) 0⌋ } := rfl

theorem updClamped_set03 (old : ℚ) :
    updClamped old (.str ("=0.3".data)) = 3 / 10 := by
  have h1 : updClamped old (.str ("=0.3".data)) =
      clamp01 ((digitsToNat ['0'] : ℚ) + (digitsToNat ['3'] : ℚ) / 10 ^ 1) := rfl
  rw [h1, show digitsToNat ['0'] = 0 from rfl, show digitsToNat ['3'] = 3 from rfl]
  norm_num [clamp01, jsMaxQ, jsMinQ]

/-- C5: the effects applier clamps as claimed — iterating `{truth: +5}` never
leaves the truth field above 1; `{hp: -1000}` from any legal hp (≤ 100)
floors hp at exactly 0; and the absolute set `"=0.3"` lands the field at
exactly 3/10 regardless of the prior value. -/
theorem C5_effects_clamp :
    (∀ (p : PlayerSt) (n : Nat), (applyEffectsN truthEff (n + 1) p).truthDensity ≤ 1)
    ∧ (∀ p : PlayerSt, p.hp ≤ 100 → (applyEffects hpEff p).hp = 0)
    ∧ (∀ p : PlayerSt, (applyEffects setEff p).truthDensity = 3 / 10) := by
  refine ⟨?_, ?_, ?_⟩
  · intro p n
    induction n generalizing p with
    | zero =>
      show (applyEffects truthEff p).truthDensity ≤ 1
      rw [applyEffects_truthEff]
      exact clamp01_le_one _
    | succ k ih =>
      show (applyEffectsN truthEff (k + 1) (applyEffects truthEff p)).truthDensity ≤ 1
      exact ih (applyEffects truthEff p)
  · intro p hp100
    rw [applyEffects_hpEff]
    show jsMaxI 0 (jsMinI 100 (p.hp + ⌊decVal (-1000) 0⌋)) = 0
    rw [decVal_e0, show ⌊((-1000 : ℤ) : ℚ)⌋ = -1000 from Int.floor_intCast _, jsMinI, jsMaxI]
    split_ifs with h1 h2 h3 <;> omega
  · intro p
    rw [applyEffects_setEff, updClamped_set03]

/-- C5 witness: the clamp theorem applied at a concrete player state. -/
theorem C5_effects_clamp_witness :
    ((⟨0, none, 0, 0, 100⟩ : PlayerSt).hp ≤ 100)
    ∧ (applyEffects hpEff ⟨0, none, 0, 0, 100⟩).hp = 0 :=
  ⟨by decide, C5_effects_clamp.2.1 ⟨0, none, 0, 0, 100⟩ (by decide)⟩

/-- C6 counterexample: a `{insight: -5}` effect drives insight from 0 to −5,
so the claim's "accumulated insight never becomes negative" fails — the
source floors the delta (line 264) but never clamps the sum at zero. -/
theorem C6_counterexample :
    (applyEffects insEff ⟨0, none, 0, 0, 100⟩).insight = -5
    ∧ ¬ (0 ≤ (applyEffects insEff ⟨0, none, 0, 0, 100⟩).insight) := by
  have h : (applyEffects insEff ⟨0, none, 0, 0, 100⟩).insight = 0 + ⌊decVal (-5) 0⌋ := by
    rw [applyEffects_insEff]
  rw [decVal_e0, show ⌊((-5 : ℤ) : ℚ)⌋ = -5 from Int.floor_intCast _] at h
  rw [h]
  norm_num

/-- C6 amended: each numeric `insight` effect adds exactly the integer floor
of its value to the accumulator — with no lower clamp, so the sum follows the
deltas wherever they lead. -/
theorem C6_insight_floor (p : PlayerSt) (m : Int) (e : Nat) :
    (applyEffects (.obj (.cons ("insight".data) (.num m e) .nil)) p).insight =
      p.insight + ⌊decVal m e⌋ := rfl

/-- C7 counterexample: after a 429 at time 0 (with the claimed 5-second retry
hint), a task entering the gate at time 1000 (T+1s) dispatches at 1500 —
well before the claimed T+5s = 5000.  The source has no `blockedUntil` and
never reads the retry hint; it only multiplies `llmMinInterval` by 1.5. -/
theorem C7_counterexample :
    (llmDispatch 1000 (llmAfter429 llmInit)).1 = 1500
    ∧ (llmDispatch 1000 (llmAfter429 llmInit)).1 < 5000 := by
  have h429 : llmAfter429 llmInit = ⟨0, 1500⟩ := by
    rw [llmAfter429, llmInit]
    norm_num [jsMinQ]
  have hd : (llmDispatch 1000 (⟨0, 1500⟩ : LLMClock)).1 = 1500 := by
    show dispatchTime 1000 ⟨0, 1500⟩ = 1500
    rw [dispatchTime]
    norm_num
  constructor
  · rw [h429, hd]
  · rw [h429, hd]
    norm_num

/-- C7 amended: the gate the source actually maintains — a call entering at
any time never fetches before `lastLLMTime + llmMinInterval`; after a 429
that stamped `lastLLMTime = T`, the bound is `T + min(1.5·I, 10000)`
(1500 ms in the scenario, not the hinted 5000). -/
theorem C7_backoff_bound :
    (∀ (now : ℚ) (c : LLMClock), c.lastLLMTime + c.llmMinInterval ≤ dispatchTime now c)
    ∧ (∀ (T I now : ℚ),
        T + jsMinQ (I * (3 / 2)) 10000 ≤ dispatchTime now (llmAfter429 ⟨T, I⟩))
    ∧ (llmDispatch 1000 (llmAfter429 llmInit)).1 = 1500 := by
  have hgate : ∀ (now : ℚ) (c : LLMClock),
      c.lastLLMTime + c.llmMinInterval ≤ dispatchTime now c := by
    intro now c
    rw [dispatchTime]
    split_ifs with h <;> linarith
  refine ⟨hgate, ?_, ?_⟩
  · intro T I now
    have := hgate now (llmAfter429 ⟨T, I⟩)
    simpa [llmAfter429] using this
  · have h429 : llmAfter429 llmInit = ⟨0, 1500⟩ := by
      rw [llmAfter429, llmInit]
      norm_num [jsMinQ]
    rw [h429]
    show dispatchTime 1000 ⟨0, 1500⟩ = 1500
    rw [dispatchTime]
    norm_num

/-- C10: an integer token outside `[1, choices.length]` is not rejected — the
parenthesised range test only gates the positional branch, so resolution
falls through to the combined id/label scan; in particular the token `"0"`
selects a choice whose id starts with `"0"`. -/
theorem C10_out_of_range_falls_through :
    (∀ (token : JStr) (chs : List Json) (idx : Int), parseIntJS token = some idx →
      ¬ (1 ≤ idx ∧ idx ≤ chs.length) →
      resolveChoice token chs = findMatch (lowerStr token) chs)
    ∧ resolveChoice ['0']
        [Json.obj (.cons ("id".data) (.str ("0-left".data)) .nil)] =
      some (Json.obj (.cons ("id".data) (.str ("0-left".data)) .nil), 0) := by
  constructor
  · intro token chs idx hparse hrange
    simp only [resolveChoice, hparse, if_neg hrange]
  · decide

/-! ## Choice resolution: the single combined scan -/

/-- The `find` returns the first element satisfying the predicate: the element is
at the reported index, it matches, and nothing before it does. -/
theorem findMatch_spec :
    ∀ (low : JStr) (chs : List Json) (c : Json) (i : Nat),
      findMatch low chs = some (c, i) →
      chs[i]? = some c ∧ choiceMatches low c = true ∧
        ∀ j d, j < i → chs[j]? = some d → choiceMatches low d = false := by
  intro low chs
  induction chs with
  | nil => intro c i h; cases h
  | cons x rest ih =>
    intro c i h
    rw [findMatch] at h
    by_cases hm : choiceMatches low x = true
    · rw [if_pos hm] at h
      cases h
      refine ⟨by simp, hm, ?_⟩
      intro j d hj
      omega
    · rw [if_neg hm] at h
      cases hfm : findMatch low rest with
      | none => rw [hfm] at h; cases h
      | some pr =>
        rw [hfm] at h
        simp only [Option.map_some', Option.some.injEq] at h
        obtain ⟨rfl, rfl⟩ := Prod.mk.injEq .. |>.mp h.symm |>.imp Eq.symm Eq.symm
        obtain ⟨h1, h2, h3⟩ := ih pr.1 pr.2 (by rw [hfm])
        refine ⟨by simpa using h1, h2, ?_⟩
        intro j d hj hjd
        cases j with
        | zero =>
          simp only [List.getElem?_cons_zero, Option.some.injEq] at hjd
          rw [← hjd]
          simpa using hm
        | succ j' =>
          apply h3 j' d (by omega)
          simpa using hjd

/-! ## Concrete fixtures for the choice/extraction scenarios -/

/-- C10 witness: the fall-through equation applied to the token `"7"` against
a two-choice list. -/
theorem C10_out_of_range_falls_through_witness :
    parseIntJS ['7'] = some 7
    ∧ ¬ ((1 : Int) ≤ 7 ∧ (7 : Int) ≤ ([Json.null, Json.null] : List Json).length)
    ∧ resolveChoice ['7'] [Json.null, Json.null] =
        findMatch (lowerStr ['7']) [Json.null, Json.null] :=
  ⟨by decide, by decide,
    C10_out_of_range_falls_through.1 ['7'] [Json.null, Json.null] 7 (by decide) (by decide)⟩

/-- C1 counterexample: the claimed tiered order (exact id before label
prefix) fails.  With the label-only choice (`label "abstract"`) listed before
the exact-id choice (`id "ab"`), the token `"ab"` selects the label-prefix
match: the pushed path entry is `"0"` (the label choice's index fallback),
not the exact id `"ab"` the tiering would demand.  The source runs one
combined `find` scan, not tiers. -/
theorem C1_counterexample :
    (chooseStep ['a', 'b'] [] stC1).bookSession = some { sessC1 with path := [['0']] }
    ∧ pathKey cId 1 = ['a', 'b']
    ∧ (['0'] : JStr) ≠ ['a', 'b'] := by
  refine ⟨by decide, by decide, by decide⟩

/-- C1 amended: `choose` resolves by one combined scan — the selected choice
is the first whose id is equal to or prefixed by the token or whose label is
prefixed by it — and a failed resolution only reports "Choice not found.",
leaving session state untouched. -/
theorem C1_single_scan :
    (∀ (st : BState) (s : Session) (cur : JStr) (page : Json) (c0 : Json) (crest : JArr)
        (token raw : JStr),
      st.bookSession = some s → currentTruthy s = some cur →
      pagesGet cur s.pages = some page →
      getField page ("choices".data) = some (.arr (.cons c0 crest)) →
      resolveChoice token (jlist (.cons c0 crest)) = none →
      chooseStep token raw st = { st with msgs := st.msgs ++ ["Choice not found.".data] })
    ∧ (∀ (token : JStr) (chs : List Json) (c : Json) (i : Nat),
        parseIntJS token = none → resolveChoice token chs = some (c, i) →
        chs[i]? = some c ∧ choiceMatches (lowerStr token) c = true ∧
          ∀ j d, j < i → chs[j]? = some d → choiceMatches (lowerStr token) d = false) := by
  constructor
  · intro st s cur page c0 crest token raw hbs hcur hpg hch hres
    simp only [chooseStep, hbs, hcur, hpg, hch, hres]
  · intro token chs c i hparse hres
    rw [resolveChoice, hparse] at hres
    exact findMatch_spec (lowerStr token) chs c i hres

/-- C1 witness: the no-match no-op applied to the concrete open session with
the unmatchable token `"zz"`. -/
theorem C1_single_scan_witness :
    stC1.bookSession = some sessC1
    ∧ resolveChoice ['z', 'z'] (jlist (.cons cLabel (.cons cId .nil))) = none
    ∧ chooseStep ['z', 'z'] [] stC1 =
        { stC1 with msgs := stC1.msgs ++ ["Choice not found.".data] } :=
  ⟨by decide, by decide,
    C1_single_scan.1 stC1 sessC1 ['p'] pageC1 cLabel (.cons cId .nil) ['z', 'z'] []
      (by decide) (by decide) (by decide) (by decide) (by decide)⟩

/-- C4 counterexample: a choose-initiated generation that fails (the raw
response is empty, so nothing extracts) still pushes the resolved choice id
onto `path` — `choose` pushes before awaiting `_generatePage`, so the path is
NOT equal to its pre-attempt value. -/
theorem C4_counterexample :
    (chooseStep ['g', 'o'] [] stC4).bookSession = some { sessC4 with path := [['g', 'o']] }
    ∧ (chooseStep ['g', 'o'] [] stC4).msgs = [refuseMsg]
    ∧ sessC4.path = [] := by
  refine ⟨by decide, by decide, by decide⟩

/-- C4 amended: a failed generation stores no partial page — `pages` and
`current` are exactly as before for both open- and choose-initiated attempts,
and the message log gains only the refusal; but on the choose path the
session's `path` has already been extended by the resolved choice's key. -/
theorem C4_no_partial_page :
    (∀ (raw : JStr) (st : BState) (s : Session),
      st.bookSession = some s → s.bookId ≠ [] → extractJSON raw = none →
      generatePage raw st = { st with msgs := st.msgs ++ [refuseMsg] })
    ∧ (∀ (st : BState) (s : Session) (cur : JStr) (page c : Json) (c0 : Json) (crest : JArr)
        (token raw : JStr) (i : Nat),
      st.bookSession = some s → s.bookId ≠ [] → currentTruthy s = some cur →
      pagesGet cur s.pages = some page →
      getField page ("choices".data) = some (.arr (.cons c0 crest)) →
      resolveChoice token (jlist (.cons c0 crest)) = some (c, i) →
      extractJSON raw = none →
      chooseStep token raw st =
        { st with
            bookSession := some { s with path := s.path ++ [pathKey c i] },
            player := applyEffects ((getField c ("effects".data)).getD .null) st.player,
            msgs := st.msgs ++ [refuseMsg] }) := by
  have hgen : ∀ (raw : JStr) (st : BState) (s : Session),
      st.bookSession = some s → s.bookId ≠ [] → extractJSON raw = none →
      generatePage raw st = { st with msgs := st.msgs ++ [refuseMsg] } := by
    intro raw st s hbs hbid hext
    simp only [generatePage, hbs, if_neg hbid, hext]
  refine ⟨hgen, ?_⟩
  intro st s cur page c c0 crest token raw i hbs hbid hcur hpg hch hres hext
  simp only [chooseStep, hbs, hcur, hpg, hch, hres]
  rw [hgen raw _ { s with path := s.path ++ [pathKey c i] } rfl hbid hext]

/-- C4 witness: the choose-initiated clause applied at the concrete session,
with the empty raw response failing to extract. -/
theorem C4_no_partial_page_witness :
    resolveChoice ['g', 'o'] (jlist (.cons cGo .nil)) = some (cGo, 0)
    ∧ extractJSON ([] : JStr) = none
    ∧ chooseStep ['g', 'o'] [] stC4 =
        { stC4 with
            bookSession := some { sessC4 with path := sessC4.path ++ [pathKey cGo 0] },
            player := applyEffects ((getField cGo ("effects".data)).getD .null) stC4.player,
            msgs := stC4.msgs ++ [refuseMsg] } :=
  ⟨by decide, by decide,
    C4_no_partial_page.2 stC4 sessC4 ['q'] pageC4 cGo cGo .nil ['g', 'o'] [] 0
      (by decide) (by decide) (by decide) (by decide) (by decide) (by decide) (by decide)⟩

/-! ## The Page shape and the extraction round trip -/

/-- C2 counterexample: with backtick runs in the surrounding prose, the fence
strategy fires before the brace slice and extracts the text between the
backtick runs — the number 5 — instead of the conforming page object sitting
as a single `{...}` block. -/
theorem C2_counterexample :
    pageShape (Json.obj fsC2) = true
    ∧ extractJSON (preC2 ++ (stringify (Json.obj fsC2) ++ postC2)) = some (.num 5 0)
    ∧ Json.num 5 0 ≠ Json.obj fsC2 := by
  refine ⟨by decide, by decide, by decide⟩

/-- C2 amended: the round trip holds for every conforming page whose
serialization avoids backticks and (case-insensitive) dollar signs, bare, in
a ```json fence, and as a single `{...}` block surrounded by prose that
itself has no backticks, braces or dollars (lowercase letters, spaces and
periods). -/
theorem C2_round_trip (fs : JObj) (hshape : pageShape (Json.obj fs) = true)
    (hbt : ∀ c ∈ stringify (Json.obj fs), c ≠ '`')
    (hdl : ∀ c ∈ stringify (Json.obj fs), lowerChar c ≠ '$')
    (pre post : JStr)
    (hpre : ∀ c ∈ pre, proseChar c = true) (hpost : ∀ c ∈ post, proseChar c = true) :
    extractJSON (stringify (Json.obj fs)) = some (Json.obj fs)
    ∧ extractJSON (['`', '`', '`', 'j', 's', 'o', 'n', '\n'] ++
        (stringify (Json.obj fs) ++ ['\n', '`', '`', '`'])) = some (Json.obj fs)
    ∧ extractJSON (pre ++ (stringify (Json.obj fs) ++ post)) = some (Json.obj fs) :=
  ⟨extractJSON_stringify _, extractJSON_fenced _ hbt,
    extractJSON_prose_wrapped fs pre post hpre hpost hbt hdl⟩

/-- C2 witness: the three-way round trip at the minimal page, wrapped in
concrete librarian prose. -/
theorem C2_round_trip_witness :
    pageShape (Json.obj fsC2) = true
    ∧ extractJSON ("the page reads ".data ++ (stringify (Json.obj fsC2) ++ " now.".data)) =
        some (Json.obj fsC2) :=
  ⟨by decide,
    (C2_round_trip fsC2 (by decide) (by decide) (by decide)
      "the page reads ".data (" now.".data) (by decide) (by decide)).2.2⟩

/-- C3 counterexample: `extractJSON` itself does not turn JSON lacking
`page_id`/`prose` into a failed extraction — it returns the parsed object
(here `{"a": 1}`, which fails the Page shape), so "treated as a failed
extraction (none)" is false of the extractor proper; the rejection lives one
level up, in `_generatePage`'s guard. -/
theorem C3_counterexample :
    extractJSON ("\x7b\x22a\x22:1\x7d".data) =
      some (.obj (.cons ['a'] (.num 1 0) .nil))
    ∧ pageShape (.obj (.cons ['a'] (.num 1 0) .nil)) = false := by
  refine ⟨by decide, by decide⟩

/-- C3 amended: extraction answers `none` (it never throws) on non-JSON
gibberish — any text of lowercase words whose trim is not a bare JSON
keyword — while a parse that succeeds but lacks a truthy `page_id` or
`prose` is returned by the extractor and rejected only by its caller:
`_generatePage` prints the refusal message and stores nothing. -/
theorem C3_gibberish_and_shape :
    (∀ s : JStr, (∀ c ∈ s, proseChar c = true) →
      trim s ≠ ['t', 'r', 'u', 'e'] → trim s ≠ ['f', 'a', 'l', 's', 'e'] →
      trim s ≠ ['n', 'u', 'l', 'l'] → extractJSON s = none)
    ∧ (∀ (raw : JStr) (st : BState) (s : Session) (o : Json),
        st.bookSession = some s → s.bookId ≠ [] → extractJSON raw = some o →
        ¬ (jsTruthyOpt (getField o ("page_id".data)) = true
            ∧ jsTruthyOpt (getField o ("prose".data)) = true) →
        generatePage raw st = { st with msgs := st.msgs ++ [refuseMsg] }) := by
  constructor
  · intro s hall h1 h2 h3
    exact extractJSON_prose_none s hall h1 h2 h3
  · intro raw st s o hbs hbid hext hshape
    simp only [generatePage, hbs, if_neg hbid, hext, if_pos hshape]

/-- C3 witness: gibberish rejection on "utter gibberish", and the refusal on
a parsed object that has a `page_id` but no `prose`. -/
theorem C3_gibberish_and_shape_witness :
    extractJSON ("utter gibberish".data) = none
    ∧ extractJSON ("\x7b\x22page_id\x22:\x22p\x22\x7d".data) =
        some (.obj (.cons ("page_id".data) (.str ['p']) .nil))
    ∧ generatePage ("\x7b\x22page_id\x22:\x22p\x22\x7d".data) stC4 =
        { stC4 with msgs := stC4.msgs ++ [refuseMsg] } :=
  ⟨C3_gibberish_and_shape.1 ("utter gibberish".data) (by decide) (by decide) (by decide)
      (by decide),
    by decide,
    C3_gibberish_and_shape.2 ("\x7b\x22page_id\x22:\x22p\x22\x7d".data) stC4 sessC4
      (.obj (.cons ("page_id".data) (.str ['p']) .nil))
      (by decide) (by decide) (by decide) (by decide)⟩

/-! ## The current-points-into-pages invariant -/

theorem pagesGet_set_self (k : JStr) (v : Json) :
    ∀ l, pagesGet k (pagesSet k v l) = some v := by
  intro l
  induction l with
  | nil => simp [pagesSet, pagesGet]
  | cons kv rest ih =>
    obtain ⟨k', v'⟩ := kv
    rw [pagesSet]
    by_cases h : k' = k
    · rw [if_pos h, pagesGet, if_pos h]
    · rw [if_neg h, pagesGet, if_neg h]
      exact ih

/-- Storing a page under `k` and pointing `current` at `k` always satisfies
the invariant, whatever else the state update carries. -/
theorem invB_set_current (st : BState) (s : Session) (k : JStr) (o : Json) (pl : PlayerSt)
    (m : List JStr) :
    invB { st with
      bookSession := some { s with pages := pagesSet k o s.pages, current := some k },
      player := pl, msgs := m } = true := by
  show currentOk { s with pages := pagesSet k o s.pages, current := some k } = true
  show (pagesGet k (pagesSet k o s.pages)).isSome = true
  rw [pagesGet_set_self]
  rfl

theorem invB_generatePage (raw : JStr) (st : BState) (h : invB st = true) :
    invB (generatePage raw st) = true := by
  cases hbs : st.bookSession with
  | none => simpa only [generatePage, hbs]
  | some s =>
    rw [invB, hbs] at h
    cases hext : extractJSON raw with
    | none =>
      simp only [generatePage, hbs, hext]
      by_cases hbid : s.bookId = []
      · rw [if_pos hbid, invB, hbs]
        exact h
      · rw [if_neg hbid]
        exact h
    | some o =>
      simp only [generatePage, hbs, hext]
      by_cases hbid : s.bookId = []
      · rw [if_pos hbid, invB, hbs]
        exact h
      · rw [if_neg hbid]
        by_cases hsh : ¬ (jsTruthyOpt (getField o ("page_id".data)) = true
            ∧ jsTruthyOpt (getField o ("prose".data)) = true)
        · rw [if_pos hsh]
          exact h
        · rw [if_neg hsh]
          exact invB_set_current st s _ _ _ _

theorem invB_ensureSession (isBook : Bool) (bookId name seed : JStr) (st : BState)
    (h : invB st = true) : invB (ensureSession isBook bookId name seed st) = true := by
  by_cases hib : ¬ isBook = true
  · rw [ensureSession, if_pos hib]
    exact h
  cases hbs : st.bookSession with
  | none =>
    simp only [ensureSession, hbs]
    rw [if_neg hib]
    rfl
  | some s =>
    simp only [ensureSession, hbs]
    rw [if_neg hib]
    by_cases hb : s.bookId = bookId
    · rw [if_pos hb]
      rw [invB, hbs] at h
      exact h
    · rw [if_neg hb]
      rfl

theorem invB_chooseStep (token raw : JStr) (st : BState) (h : invB st = true) :
    invB (chooseStep token raw st) = true := by
  cases hbs : st.bookSession with
  | none =>
    simp only [chooseStep, hbs]
    rfl
  | some s =>
    rw [invB, hbs] at h
    have h' : currentOk s = true := h
    simp only [chooseStep, hbs]
    split
    · exact h'
    · split
      · exact h'
      · split
        · split
          · exact h'
          · apply invB_generatePage
            show currentOk _ = true
            exact h'
        · exact h'

theorem invB_openStep (found : Option (JStr × JStr)) (seed raw : JStr) (st : BState)
    (h : invB st = true) : invB (openStep found seed raw st) = true := by
  cases found with
  | none =>
    simp only [openStep]
    exact h
  | some pr =>
    obtain ⟨id, name⟩ := pr
    have hens := invB_ensureSession true id name seed st h
    simp only [openStep]
    split
    · exact hens
    · split
      · split
        · exact hens
        · exact invB_generatePage raw _ hens
      · exact invB_generatePage raw _ hens

theorem invB_askStep (answer : Option JStr) (st : BState) (h : invB st = true) :
    invB (askStep answer st) = true := by
  cases hbs : st.bookSession with
  | none =>
    simp only [askStep, hbs]
    rfl
  | some s =>
    rw [invB, hbs] at h
    have h' : currentOk s = true := h
    simp only [askStep, hbs]
    split
    · exact h'
    · split
      · exact h'
      · split
        · exact h'
        · rw [invB, hbs]
          exact h'

theorem invB_drawStep (url : Option JStr) (st : BState) (h : invB st = true) :
    invB (drawStep url st) = true := by
  cases hbs : st.bookSession with
  | none =>
    simp only [drawStep, hbs]
    rfl
  | some s =>
    rw [invB, hbs] at h
    have h' : currentOk s = true := h
    simp only [drawStep, hbs]
    split
    · exact h'
    · split
      · exact h'
      · split
        · exact h'
        · exact h'

theorem invB_closeStep (st : BState) (h : invB st = true) : invB (closeStep st) = true := by
  cases hbs : st.bookSession with
  | none =>
    simp only [closeStep, hbs]
    rfl
  | some s =>
    rw [invB, hbs] at h
    have h' : currentOk s = true := h
    simp only [closeStep, hbs]
    split
    · exact h'
    · exact h'

theorem invB_resumeStep (st : BState) (h : invB st = true) : invB (resumeStep st) = true := by
  cases hbs : st.bookSession with
  | none =>
    simp only [resumeStep, hbs]
    rfl
  | some s =>
    rw [invB, hbs] at h
    have h' : currentOk s = true := h
    simp only [resumeStep, hbs]
    split
    · exact h'
    · exact h'

theorem invB_summaryStep (st : BState) (h : invB st = true) : invB (summaryStep st) = true := by
  cases hbs : st.bookSession with
  | none =>
    simp only [summaryStep, hbs]
    rfl
  | some s =>
    rw [invB, hbs] at h
    have h' : currentOk s = true := h
    simp only [summaryStep, hbs]
    split
    · exact h'
    · exact h'

/-- C9: every reachable `BooksEngine` operation preserves the invariant that a
set `current` pointer names a key of `pages` — page storage and the `current`
assignment happen together in `_generatePage`, and no other operation touches
either field except to create a fresh session with `current` unset. -/
theorem C9_current_in_pages (op : BOp) (st : BState) (h : invB st = true) :
    invB (applyBOp op st) = true := by
  cases op with
  | openBook found seed raw => exact invB_openStep found seed raw st h
  | choose token raw => exact invB_chooseStep token raw st h
  | ask answer => exact invB_askStep answer st h
  | draw url => exact invB_drawStep url st h
  | close => exact invB_closeStep st h
  | resume => exact invB_resumeStep st h
  | summary => exact invB_summaryStep st h
  | ensure isBook bookId name seed => exact invB_ensureSession isBook bookId name seed st h
  | pageArrive raw => exact invB_generatePage raw st h

/-- C9 witness: the invariant is preserved across a concrete page arrival
that stores a page and moves `current`. -/
theorem C9_current_in_pages_witness :
    invB stC4 = true
    ∧ invB (applyBOp (.pageArrive ("\x7b\x22page_id\x22:\x22r\x22,\x22prose\x22:\x22ok\x22\x7d".data))
        stC4) = true :=
  ⟨by decide,
    C9_current_in_pages (.pageArrive ("\x7b\x22page_id\x22:\x22r\x22,\x22prose\x22:\x22ok\x22\x7d".data))
      stC4 (by decide)⟩

/-! ## The request queue: single flight -/

theorem subsSorted_head_le :
    ∀ (a : Nat × Nat × Nat) (l : List (Nat × Nat × Nat)), subsSorted (a :: l) = true →
      (∀ x ∈ l, a.1 ≤ x.1) ∧ subsSorted l = true := by
  intro a l
  induction l generalizing a with
  | nil =>
    intro h
    exact ⟨by simp, rfl⟩
  | cons b rest ih =>
    intro h
    rw [subsSorted] at h
    simp only [Bool.and_eq_true, decide_eq_true_eq] at h
    obtain ⟨h1, h2⟩ := h
    obtain ⟨hall, -⟩ := ih b h2
    refine ⟨?_, h2⟩
    intro x hx
    rcases List.mem_cons.mp hx with rfl | hx2
    · exact h1
    · exact le_trans h1 (hall x hx2)

theorem subsSorted_append_last :
    ∀ (l : List (Nat × Nat × Nat)) (x : Nat × Nat × Nat), subsSorted l = true →
      (∀ y ∈ l, y.1 ≤ x.1) → subsSorted (l ++ [x]) = true := by
  intro l
  induction l with
  | nil => intro x _ _; rfl
  | cons a rest ih =>
    intro x hs hle
    cases rest with
    | nil =>
      show subsSorted (a :: [x]) = true
      rw [subsSorted]
      simp only [Bool.and_eq_true, decide_eq_true_eq]
      exact ⟨hle a (List.mem_cons_self a []), rfl⟩
    | cons b rest2 =>
      rw [subsSorted] at hs
      simp only [Bool.and_eq_true, decide_eq_true_eq] at hs
      show subsSorted (a :: ((b :: rest2) ++ [x])) = true
      rw [show (b :: rest2) ++ [x] = b :: (rest2 ++ [x]) from rfl, subsSorted]
      simp only [Bool.and_eq_true, decide_eq_true_eq]
      refine ⟨hs.1, ?_⟩
      rw [show (b : Nat × Nat × Nat) :: (rest2 ++ [x]) = (b :: rest2) ++ [x] from rfl]
      exact ih x hs.2 (fun y hy => hle y (List.mem_cons_of_mem a hy))

theorem callsEnd_concat (cs : List (Nat × Nat × Nat)) (x : Nat × Nat × Nat) :
    callsEnd (cs ++ [x]) = some x.2.2 := by
  rw [callsEnd, List.getLast?_concat]
  rfl

theorem callsChain_append :
    ∀ (cs : List (Nat × Nat × Nat)) (tid s0 e0 : Nat), callsChain cs = true →
      (∀ e, callsEnd cs = some e → e ≤ s0) → s0 ≤ e0 →
      callsChain (cs ++ [(tid, s0, e0)]) = true := by
  intro cs
  induction cs with
  | nil =>
    intro tid s0 e0 _ _ h3
    show callsChain [(tid, s0, e0)] = true
    rw [callsChain]
    simpa using h3
  | cons a rest ih =>
    intro tid s0 e0 hch hend h3
    obtain ⟨ta, sa, ea⟩ := a
    cases rest with
    | nil =>
      show callsChain ((ta, sa, ea) :: [(tid, s0, e0)]) = true
      rw [callsChain]
      simp only [Bool.and_eq_true, decide_eq_true_eq]
      rw [callsChain] at hch
      simp only [decide_eq_true_eq] at hch
      exact ⟨⟨hch, hend ea rfl⟩, by rw [callsChain]; simpa using h3⟩
    | cons b rest2 =>
      obtain ⟨tb, sb, eb⟩ := b
      show callsChain ((ta, sa, ea) :: (tb, sb, eb) :: (rest2 ++ [(tid, s0, e0)])) = true
      rw [callsChain]
      rw [callsChain] at hch
      simp only [Bool.and_eq_true, decide_eq_true_eq] at hch ⊢
      obtain ⟨⟨h1, h2⟩, h3c⟩ := hch
      refine ⟨⟨h1, h2⟩, ?_⟩
      rw [show ((tb, sb, eb) : Nat × Nat × Nat) :: (rest2 ++ [(tid, s0, e0)]) =
        ((tb, sb, eb) :: rest2) ++ [(tid, s0, e0)] from rfl]
      apply ih tid s0 e0 h3c ?_ h3
      intro e he
      apply hend e
      rw [callsEnd] at he ⊢
      rw [List.getLast?_cons_cons]
      exact he

theorem QInv_qExecute (st : QSim) (tid dur : Nat) (h : QInv st) :
    QInv (qExecute st.now tid dur st) := by
  obtain ⟨h1, h2, h3, h4, h5, h6, h7, h8⟩ := h
  rw [qExecute]
  by_cases hif : st.inFlight = true
  · rw [if_pos hif]
    exact ⟨h1, h2, h3, h4, h5, h6, h7, h8⟩
  · rw [if_neg hif]
    have hrn : st.running = none := by
      cases hr : st.running with
      | none => rfl
      | some p =>
        rw [hr] at h1
        simp only [Option.isSome_some] at h1
        exact absurd h1 hif
    refine ⟨rfl, ?_, ?_, ?_, h5, h6, h7, h8⟩
    · exact callsChain_append st.calls tid st.now (st.now + dur) h2 (h4 hrn)
        (Nat.le_add_right _ _)
    · intro p hp
      cases hp
      exact ⟨Nat.le_add_right _ _, callsEnd_concat _ _⟩
    · intro h0
      exact Option.noConfusion h0

theorem QInv_step (st st' : QSim) (h : QInv st) (hs : stepQSim st = some st') :
    QInv st' := by
  obtain ⟨h1, h2, h3, h4, h5, h6, h7, h8⟩ := h
  simp only [stepQSim] at hs
  by_cases hb1 : (leOpt (compTime st) (timerTime st) && leOpt (compTime st) (subTime st)) = true
  · rw [if_pos hb1] at hs
    simp only [Bool.and_eq_true] at hb1
    obtain ⟨hb1t, hb1s⟩ := hb1
    cases hrun : st.running with
    | none =>
      rw [hrun] at hs
      exact Option.noConfusion hs
    | some pe =>
      obtain ⟨tid0, e⟩ := pe
      rw [hrun] at hs
      obtain ⟨hnow, hend⟩ := h3 (tid0, e) hrun
      have htt : ∀ f ∈ st.timers, e ≤ f.1 := by
        intro f hf
        cases htm : st.timers with
        | nil =>
          rw [htm] at hf
          cases hf
        | cons f0 rest =>
          simp only [compTime, hrun, timerTime, htm] at hb1t
          simp only [leOpt, decide_eq_true_eq] at hb1t
          have hsor := subsSorted_head_le f0 rest (by rw [← htm]; exact h6)
          rw [htm] at hf
          rcases List.mem_cons.mp hf with rfl | hf2
          · exact hb1t
          · exact le_trans hb1t (hsor.1 f hf2)
      have hss : ∀ x ∈ st.subs, e ≤ x.1 := by
        intro x hx
        cases hsb : st.subs with
        | nil =>
          rw [hsb] at hx
          cases hx
        | cons s0 rest =>
          simp only [compTime, hrun, subTime, hsb] at hb1s
          simp only [leOpt, decide_eq_true_eq] at hb1s
          have hsor := subsSorted_head_le s0 rest (by rw [← hsb]; exact h7)
          rw [hsb] at hx
          rcases List.mem_cons.mp hx with rfl | hx2
          · exact hb1s
          · exact le_trans hb1s (hsor.1 x hx2)
      cases hq : st.queue with
      | nil =>
        rw [hq] at hs
        cases hs
        refine ⟨rfl, h2, ?_, ?_, ?_, h6, h7, ?_⟩
        · intro p hp
          exact Option.noConfusion hp
        · intro _ e' he'
          rw [hend] at he'
          cases he'
          exact le_refl _
        · intro f hf
          refine ⟨htt f hf, ?_⟩
          have := (h5 f hf).2
          show f.1 ≤ e + 100
          omega
        · intro x hx
          exact hss x hx
      | cons td rest =>
        obtain ⟨tid1, dur1⟩ := td
        rw [hq] at hs
        cases hs
        refine ⟨rfl, h2, ?_, ?_, ?_, ?_, h7, ?_⟩
        · intro p hp
          exact Option.noConfusion hp
        · intro _ e' he'
          rw [hend] at he'
          cases he'
          exact le_refl _
        · intro f hf
          rcases List.mem_append.mp hf with hf1 | hf2
          · refine ⟨htt f hf1, ?_⟩
            have := (h5 f hf1).2
            show f.1 ≤ e + 100
            omega
          · simp only [List.mem_singleton] at hf2
            subst hf2
            exact ⟨Nat.le_add_right _ _, le_refl _⟩
        · apply subsSorted_append_last _ _ h6
          intro y hy
          have := (h5 y hy).2
          show y.1 ≤ e + 100
          omega
        · intro x hx
          exact hss x hx
  · rw [if_neg hb1] at hs
    by_cases hb2 : leOpt (timerTime st) (subTime st) = true
    · rw [if_pos hb2] at hs
      cases htm : st.timers with
      | nil =>
        rw [htm] at hs
        exact Option.noConfusion hs
      | cons ftd rest =>
        obtain ⟨f, tid1, dur1⟩ := ftd
        rw [htm] at hs
        cases hs
        have hbound := h5 (f, tid1, dur1) (by rw [htm]; exact List.mem_cons_self _ _)
        have hsor := subsSorted_head_le (f, tid1, dur1) rest (by rw [← htm]; exact h6)
        refine QInv_qExecute _ tid1 dur1 ⟨h1, h2, ?_, ?_, ?_, hsor.2, h7, ?_⟩
        · intro p hp
          have hp' : st.running = some p := hp
          have h3p := h3 p hp'
          refine ⟨?_, h3p.2⟩
          by_cases hfp : f ≤ p.2
          · exact hfp
          exfalso
          apply hb1
          simp only [Bool.and_eq_true]
          constructor
          · simp only [compTime, hp', timerTime, htm]
            simp only [leOpt, decide_eq_true_eq]
            omega
          · simp only [compTime, hp']
            cases hsb : st.subs with
            | nil =>
              simp only [subTime, hsb]
              rfl
            | cons s0 r2 =>
              simp only [subTime, hsb]
              simp only [timerTime, htm, subTime, hsb] at hb2
              simp only [leOpt, decide_eq_true_eq] at hb2 ⊢
              omega
        · intro hrn e' he'
          have := h4 hrn e' he'
          show e' ≤ f
          omega
        · intro x hx
          have hx1 := hsor.1 x hx
          have hx2 := (h5 x (by rw [htm]; exact List.mem_cons_of_mem _ hx)).2
          constructor
          · exact hx1
          · show x.1 ≤ f + 100
            omega
        · intro x hx
          show f ≤ x.1
          cases hsb : st.subs with
          | nil =>
            rw [hsb] at hx
            cases hx
          | cons s0 r2 =>
            simp only [timerTime, htm, subTime, hsb] at hb2
            simp only [leOpt, decide_eq_true_eq] at hb2
            have hsor2 := subsSorted_head_le s0 r2 (by rw [← hsb]; exact h7)
            rw [hsb] at hx
            rcases List.mem_cons.mp hx with rfl | hx2
            · exact hb2
            · exact le_trans hb2 (hsor2.1 x hx2)
    · rw [if_neg hb2] at hs
      cases hsb : st.subs with
      | nil =>
        rw [hsb] at hs
        exact Option.noConfusion hs
      | cons ttd rest =>
        obtain ⟨t, tid1, dur1⟩ := ttd
        rw [hsb] at hs
        cases hs
        have hnowt := h8 (t, tid1, dur1) (by rw [hsb]; exact List.mem_cons_self _ _)
        have hsor := subsSorted_head_le (t, tid1, dur1) rest (by rw [← hsb]; exact h7)
        have htlt : ∀ f0 ∈ st.timers, t < f0.1 := by
          intro f0 hf0
          cases htm : st.timers with
          | nil =>
            rw [htm] at hf0
            cases hf0
          | cons g grest =>
            have hglt : t < g.1 := by
              by_contra hge
              apply hb2
              simp only [timerTime, htm, subTime, hsb]
              simp only [leOpt, decide_eq_true_eq]
              omega
            have hsorg := subsSorted_head_le g grest (by rw [← htm]; exact h6)
            rw [htm] at hf0
            rcases List.mem_cons.mp hf0 with rfl | hf2
            · exact hglt
            · exact lt_of_lt_of_le hglt (hsorg.1 f0 hf2)
        refine QInv_qExecute _ tid1 dur1 ⟨h1, h2, ?_, ?_, ?_, h6, hsor.2, ?_⟩
        · intro p hp
          have hp' : st.running = some p := hp
          have h3p := h3 p hp'
          refine ⟨?_, h3p.2⟩
          by_cases htp : t ≤ p.2
          · exact htp
          exfalso
          apply hb1
          simp only [Bool.and_eq_true]
          constructor
          · simp only [compTime, hp']
            cases htm : st.timers with
            | nil =>
              simp only [timerTime, htm]
              rfl
            | cons g grest =>
              simp only [timerTime, htm]
              simp only [leOpt, decide_eq_true_eq]
              have := htlt g (by rw [htm]; exact List.mem_cons_self _ _)
              omega
          · simp only [compTime, hp', subTime, hsb]
            simp only [leOpt, decide_eq_true_eq]
            omega
        · intro hrn e' he'
          have := h4 hrn e' he'
          show e' ≤ t
          omega
        · intro f0 hf0
          have := htlt f0 hf0
          have := (h5 f0 hf0).2
          constructor
          · show t ≤ f0.1
            omega
          · show f0.1 ≤ t + 100
            omega
        · intro x hx
          show t ≤ x.1
          exact hsor.1 x hx

theorem QInv_run : ∀ (fuel : Nat) (st : QSim), QInv st → QInv (runQSim fuel st) := by
  intro fuel
  induction fuel with
  | zero => intro st h; exact h
  | succ g ih =>
    intro st h
    rw [runQSim]
    cases hstep : stepQSim st with
    | none => exact h
    | some st2 => exact ih st2 (QInv_step st st2 h hstep)

theorem QInv_init (subs : List (Nat × Nat × Nat)) (hs : subsSorted subs = true) :
    QInv (qInit subs) := by
  refine ⟨rfl, rfl, ?_, ?_, ?_, rfl, hs, ?_⟩
  · intro p hp
    exact Option.noConfusion hp
  · intro _ e he
    exact Option.noConfusion he
  · intro f hf
    cases hf
  · intro x hx
    exact Nat.zero_le _

/-- C8 counterexample: FIFO fails.  Three tasks are submitted at times 0, 100
and 1050 (each call lasting 1000 ms).  Task 1 queues behind task 0 and is
rescheduled by the 100 ms `setTimeout` when task 0 finishes at 1100 — but
task 2's direct submission at 1050 grabs the idle client inside that window,
so the network calls run in order 0, 2, 1, not submission order. -/
theorem C8_counterexample :
    callOrder (runQSim 20 (qInit [(0, 0, 1000), (100, 1, 1000), (1050, 2, 1000)])) = [0, 2, 1]
    ∧ ([0, 2, 1] : List Nat) ≠ [0, 1, 2] := by
  refine ⟨by decide, by decide⟩

/-- C8 amended: single flight holds — for every ascending submission
schedule, the logged network calls of one client never overlap: each call
ends no later than the next one starts.  (Relative order, however, is not
always submission order, as the counterexample shows.) -/
theorem C8_single_flight (subs : List (Nat × Nat × Nat)) (fuel : Nat)
    (hs : subsSorted subs = true) :
    callsChain (runQSim fuel (qInit subs)).calls = true :=
  (QInv_run fuel (qInit subs) (QInv_init subs hs)).2.1

/-- C8 witness: non-overlap on a concrete two-task schedule. -/
theorem C8_single_flight_witness :
    subsSorted [(0, 0, 1000), (50, 1, 200)] = true
    ∧ callsChain (runQSim 10 (qInit [(0, 0, 1000), (50, 1, 200)])).calls = true :=
  ⟨by decide, C8_single_flight [(0, 0, 1000), (50, 1, 200)] 10 (by decide)⟩

end QMud
